import Mathlib

/-!
Verification of the hashmap engine in `hashmap.in.h` (RolandMarchand/hashmap.h).

Shallow embedding notes.

The C library is macro-generic over a key type, a value type, a hash callback
and a comparison callback.  We model this by parameterizing every definition
over types `K` and `V`, a decidable equality on `K` (the comparison
capability: `memcmp` over the key's representation or a user comparator, both
of which decide equality of key values), and a hash function `hashF : K → Nat`
(the hash capability; when the C callback is `NULL` the default hashes the raw
bytes of the key value, which is still a function of the key value).

`size_t` is modelled as `Nat` with explicit wrap-around (`% 2 ^ 64`) exactly
where the C code can overflow, namely in the next-power-of-two computation of
`hashmap_grow`; we fix the 64-bit instantiation (`sizeof(size_t) = 8`,
`sizeof(struct HashmapListNode *) = 8`), so both `sizeof` guards in the C
smear are active.

A bucket's collision chain (a singly linked list of `HashmapListNode`) is a
`List (K × V)` in link order.  The bucket array pointer is
`Option (List (List (K × V)))` — `none` models the `NULL` pointer of a
freshly zeroed or freed table, `some` an allocated array.

The struct field `iteration_callback` has C type
`int (*)(CustomKey, CustomValue, void *context)`; because the `void *`
context cannot be given one fixed Lean type, the callback is passed to
`hashmap_iterate` as an explicit `Option` argument (the value of the field at
call time, `none` modelling a `NULL` field) instead of being stored in the
structure.  `hashmap_grow`'s temporary swap of the field for
`hashmap_grow_internal` is modelled by passing that internal callback
directly, and its restore of the backup is then a no-op.

The load-factor test `(float)buckets_filled / (float)capacity > 0.75f` is
modelled as the exact comparison `4 * buckets_filled > 3 * capacity`.  Since
`capacity` is a power of two the float division is exact, and `buckets_filled`
converts to `float` exactly whenever `buckets_filled ≤ 2 ^ 24`; theorems about
the trigger therefore carry a `capacity ≤ 2 ^ 24` hypothesis where the exact
threshold matters.

`hashmap_insert` and `hashmap_grow` are mutually recursive in the C code (the
rehash reinserts via `hashmap_insert`, which can re-trigger `hashmap_grow` on
the map being built).  Termination holds because capacities double, but to
keep the definitions kernel-computable we define the pair by structural
recursion on a fuel (`hashmap_ops`); exhausted fuel takes the code's own
"do not grow" branch.  The public wrappers supply fuel far exceeding the
maximal possible nesting depth (each nested growth at least doubles a
capacity that is bounded by `4/3` of the entry count, so the depth is
logarithmic in `size`).

Allocation failure and the panic paths abort the process (or longjmp in the
test harness) and are outside the model: every modelled execution is one in
which the allocator succeeds.  The `assert` statements of the C code are
compiled in debug mode; in particular the reinserting callback
`hashmap_grow_internal` performs its insertion inside `assert(...)`, which we
model as the insertion happening (the debug build is the configuration the
repository tests exercise).
-/

set_option autoImplicit false
set_option maxRecDepth 100000

universe u v w

variable {K : Type u} {V : Type v} {γ : Type w}

/-- Model of `struct Hashmap`: bucket array (`none` = `NULL` pointer), entry
count `size`, bucket-array length `capacity`, and occupied-bucket count
`buckets_filled`.  The `iteration_callback` field is modelled as an argument
of `hashmap_iterate` (see the header comment). -/
structure Hashmap (K : Type u) (V : Type v) where
  buckets : Option (List (List (K × V)))
  size : Nat
  capacity : Nat
  buckets_filled : Nat
deriving DecidableEq, Repr

/-- A zero-initialized table, `Hashmap map = {0}` — the empty/uninitialized/
freed state. -/
def Hashmap.empty : Hashmap K V :=
  { buckets := none, size := 0, capacity := 0, buckets_filled := 0 }

/-- The bucket array contents; `[]` when the pointer is `NULL` (the C code
only dereferences `buckets` when it is non-`NULL`). -/
def Hashmap.chains (m : Hashmap K V) : List (List (K × V)) :=
  m.buckets.getD []

/-- All stored entries, in bucket-index order and link order within a bucket —
the order in which `hashmap_iterate` visits them. -/
def Hashmap.entries (m : Hashmap K V) : List (K × V) :=
  m.chains.flatten

/-- The keys of all stored entries. -/
def Hashmap.keyList (m : Hashmap K V) : List K :=
  m.entries.map Prod.fst

/-- Model of `hashmap_compare_keys`: the C function returns `0` exactly when
the two keys are equal (byte-wise `memcmp` of the representation, or the user
comparator); we return `true` for equal. -/
def hashmap_compare_keys [DecidableEq K] (key1 key2 : K) : Bool :=
  key1 = key2

/-- Model of `hashmap_fnv1a_32_buf`: 32-bit FNV-1a over a byte buffer
(bytes as naturals below 256). -/
def hashmap_fnv1a_32_buf (buf : List Nat) : Nat :=
  buf.foldl (fun hval b => ((hval ^^^ b) * 0x01000193) &&& 0xFFFFFFFF) 0x811c9dc5

/-- Model of `hashmap_fnv1a_32_str`: 32-bit FNV-1a over the bytes of a
NUL-terminated string, given here as the list of bytes before the
terminator. -/
def hashmap_fnv1a_32_str (str : List Nat) : Nat :=
  hashmap_fnv1a_32_buf str

/-- Model of `hashmap_hash_index`: the key's hash masked with
`capacity - 1`. -/
def hashmap_hash_index (hashF : K → Nat) (m : Hashmap K V) (key : K) : Nat :=
  hashF key &&& (m.capacity - 1)

/-- Model of `hashmap_list_insert`: walk the chain; on a key match overwrite
that node's value in place and report `true` ("overwritten", C return 1);
otherwise append a fresh node at the tail and report `false` (C return 0). -/
def hashmap_list_insert [DecidableEq K] :
    List (K × V) → K → V → List (K × V) × Bool
  | [], key, value => ([(key, value)], false)
  | p :: tl, key, value =>
    if hashmap_compare_keys key p.1 then
      ((p.1, value) :: tl, true)
    else
      let r := hashmap_list_insert tl key value
      (p :: r.1, r.2)

/-- Model of `hashmap_list_find`: linear scan; `some` of the first matching
node's value (C return 1 with `*out` written), else `none` (C return 0). -/
def hashmap_list_find [DecidableEq K] : List (K × V) → K → Option V
  | [], _ => none
  | p :: tl, key =>
    if hashmap_compare_keys p.1 key then some p.2 else hashmap_list_find tl key

/-- Model of `hashmap_list_remove`: unlink the first matching node, returning
the modified chain and `some` of the removed value; `(unchanged, none)` when
no node matches. -/
def hashmap_list_remove [DecidableEq K] :
    List (K × V) → K → List (K × V) × Option V
  | [], _ => ([], none)
  | p :: tl, key =>
    if hashmap_compare_keys p.1 key then
      (tl, some p.2)
    else
      let r := hashmap_list_remove tl key
      (p :: r.1, r.2)

/-- Model of `hashmap_list_iterate`: invoke the callback on each node in link
order, threading the `void *context` as a state of type `γ`; the `Bool`
returned by the callback is the C `int` (`true` = continue, `false` = stop).
Result `true` corresponds to the C return 1 ("completed"), `false` to 0
("halted"). -/
def hashmap_list_iterate (callback : K → V → γ → γ × Bool) :
    List (K × V) → γ → γ × Bool
  | [], context => (context, true)
  | p :: tl, context =>
    let r := callback p.1 p.2 context
    if r.2 then hashmap_list_iterate callback tl r.1 else (r.1, false)

/-- Model of `hashmap_list_duplicate`: deep-copy every node in link order
(copy of the head, then copies appended in order). -/
def hashmap_list_duplicate : List (K × V) → List (K × V)
  | [] => []
  | p :: tl => p :: hashmap_list_duplicate tl

/-- Model of `hashmap_init` on a non-`NULL` table: zero the struct, then
allocate `HASHMAP_DEFAULT_CAPACITY = 8` empty buckets. -/
def hashmap_init : Hashmap K V :=
  { buckets := some (List.replicate 8 []), size := 0, capacity := 8,
    buckets_filled := 0 }

/-- Model of the next-power-of-two computation in `hashmap_grow` (bit smear
then increment) on a 64-bit `size_t`; the increment can wrap to `0`. -/
def hashmap_next_capacity (c : Nat) : Nat :=
  let n1 := c ||| (c >>> 1)
  let n2 := n1 ||| (n1 >>> 2)
  let n3 := n2 ||| (n2 >>> 4)
  let n4 := n3 ||| (n3 >>> 8)
  let n5 := n4 ||| (n4 >>> 16)
  let n6 := n5 ||| (n5 >>> 32)
  (n6 + 1) % 2 ^ 64

/-- The bucket loop of `hashmap_iterate`: run `hashmap_list_iterate` on every
bucket in index order, breaking out as soon as a chain iteration reports
"halted". -/
def hashmap_iterate_go (callback : K → V → γ → γ × Bool) :
    List (List (K × V)) → γ → γ × Bool
  | [], context => (context, true)
  | b :: rest, context =>
    let r := hashmap_list_iterate callback b context
    if r.2 then hashmap_iterate_go callback rest r.1 else (r.1, false)

/-- Model of `hashmap_iterate` on a non-`NULL` table: a no-op when no callback
is registered (`none` models a `NULL` `iteration_callback` field), otherwise
the bucket loop.  The C function returns `void`; the observable result is the
final context. -/
def hashmap_iterate (m : Hashmap K V) (callback : Option (K → V → γ → γ × Bool))
    (context : γ) : γ :=
  match callback with
  | none => context
  | some cb => (hashmap_iterate_go cb m.chains context).1

/-- The bucket-placement tail of `hashmap_insert` (everything after the
lazy-init and load-factor steps): compute the bucket index; an empty bucket
(`NULL` chain head) receives a fresh one-node chain and both `size` and
`buckets_filled` are incremented; otherwise delegate to
`hashmap_list_insert`, incrementing `size` only when a new key was
appended.  Returns the C `int` result. -/
def hashmap_place [DecidableEq K] (hashF : K → Nat) (m2 : Hashmap K V)
    (key : K) (value : V) : Hashmap K V × Int :=
  let idx := hashmap_hash_index hashF m2 key
  let bs := m2.chains
  match bs.getD idx [] with
  | [] =>
    ({ m2 with
       buckets := some (bs.set idx [(key, value)]),
       buckets_filled := m2.buckets_filled + 1,
       size := m2.size + 1 }, 0)
  | b =>
    let r := hashmap_list_insert b key value
    ({ m2 with
       buckets := some (bs.set idx r.1),
       size := if r.2 then m2.size else m2.size + 1 },
     if r.2 then 1 else 0)

/-- The body of `hashmap_insert` on a non-`NULL` table, with the call to
`hashmap_grow` abstracted as `growFn` (tied by `hashmap_ops`): lazily
initialize, grow when `buckets_filled / capacity` exceeds the 0.75 load
factor, then place the entry in its bucket (`hashmap_place`).  Returns the C
`int`: `1` when an existing key's value was overwritten, `0` when a new key
was inserted. -/
def hashmap_insert_body [DecidableEq K] (hashF : K → Nat)
    (growFn : Hashmap K V → Hashmap K V) (m : Hashmap K V) (key : K)
    (value : V) : Hashmap K V × Int :=
  let m1 := if m.buckets.isNone then hashmap_init else m
  let m2 := if 4 * m1.buckets_filled > 3 * m1.capacity then growFn m1 else m1
  hashmap_place hashF m2 key value

/-- The fresh table shell `hashmap_grow` allocates at the new capacity
(`struct Hashmap new_map = { 0 }` with `capacity` set and a zeroed bucket
array of that length). -/
def hashmap_fresh (n : Nat) : Hashmap K V :=
  { buckets := some (List.replicate n []), size := 0, capacity := n,
    buckets_filled := 0 }

/-- The body of `hashmap_grow` on a non-`NULL` table, with the reinsertion
(`hashmap_insert` inside `hashmap_grow_internal`) abstracted as `insFn`:
lazily initialize, compute the next power of two, abort as a no-op on either
overflow guard, otherwise rehash every entry into a fresh table at the new
capacity by reusing `hashmap_iterate` with the internal always-continue
callback, reverting if the resulting `size` disagrees. -/
def hashmap_grow_body (insFn : Hashmap K V → K → V → Hashmap K V × Int)
    (m : Hashmap K V) : Hashmap K V :=
  let m1 := if m.buckets.isNone then hashmap_init else m
  let new_capacity := hashmap_next_capacity m1.capacity
  if new_capacity < m1.capacity then m1
  else if (2 ^ 64 - 1) / 8 < new_capacity then m1
  else
    let fresh := hashmap_fresh new_capacity
    let new_map :=
      hashmap_iterate m1 (some fun k v acc => ((insFn acc k v).1, true)) fresh
    if m1.size ≠ new_map.size then m1 else new_map

/-- The mutually recursive pair (`hashmap_insert`, `hashmap_grow`), defined by
structural recursion on a fuel: each cross call descends one fuel level.  At
fuel `0`, `hashmap_insert` takes the code's "do not grow" branch and
`hashmap_grow` rehashes with a vacuous reinserter (so it reverts unless the
table is empty) — both are behaviors the C functions themselves have on the
corresponding branches, and the public wrappers supply more fuel than any
execution can consume. -/
def hashmap_ops [DecidableEq K] (hashF : K → Nat) :
    Nat → ((Hashmap K V → K → V → Hashmap K V × Int) ×
           (Hashmap K V → Hashmap K V))
  | 0 =>
    (hashmap_insert_body hashF (fun m => m),
     hashmap_grow_body (fun m _ _ => (m, 0)))
  | fuel + 1 =>
    (hashmap_insert_body hashF (hashmap_ops hashF fuel).2,
     hashmap_grow_body (hashmap_ops hashF fuel).1)

/-- Fuel supplied by the public wrappers: far above the logarithmic bound on
the nesting depth of grow-within-insert recursion. -/
def hashmap_fuel (m : Hashmap K V) : Nat :=
  m.size + m.capacity + 64

/-- Model of `hashmap_insert` on a non-`NULL` table. -/
def hashmap_insert [DecidableEq K] (hashF : K → Nat) (m : Hashmap K V)
    (key : K) (value : V) : Hashmap K V × Int :=
  (hashmap_ops hashF (hashmap_fuel m)).1 m key value

/-- Model of `hashmap_grow` on a non-`NULL` table. -/
def hashmap_grow [DecidableEq K] (hashF : K → Nat) (m : Hashmap K V) :
    Hashmap K V :=
  (hashmap_ops hashF (hashmap_fuel m)).2 m

/-- Model of `hashmap_remove` on a non-`NULL` table: not-found on an
unallocated table; otherwise delegate to `hashmap_list_remove` on the key's
bucket, and on success decrement `size` and, when the bucket became empty,
`buckets_filled`.  The `Option V` is the C pair (return value, `*out`):
`some` = found (C return 1, removed value stored), `none` = C return 0. -/
def hashmap_remove [DecidableEq K] (hashF : K → Nat) (m : Hashmap K V)
    (key : K) : Hashmap K V × Option V :=
  if m.buckets.isNone then (m, none)
  else
    let idx := hashmap_hash_index hashF m key
    let bs := m.chains
    let r := hashmap_list_remove (bs.getD idx []) key
    match r.2 with
    | none => ({ m with buckets := some (bs.set idx r.1) }, none)
    | some v =>
      ({ m with
         buckets := some (bs.set idx r.1),
         buckets_filled := if r.1.isEmpty then m.buckets_filled - 1
                           else m.buckets_filled,
         size := m.size - 1 }, some v)

/-- Model of `hashmap_get` on a non-`NULL` table: read-only lookup.
`some v` = C return 1 with `*out = v`; `none` = C return 0. -/
def hashmap_get [DecidableEq K] (hashF : K → Nat) (m : Hashmap K V) (key : K) :
    Option V :=
  if m.buckets.isNone then none
  else hashmap_list_find (m.chains.getD (hashmap_hash_index hashF m key) []) key

/-- Model of `hashmap_has` on a non-`NULL` table:
`hashmap_get(map, key, NULL)`. -/
def hashmap_has [DecidableEq K] (hashF : K → Nat) (m : Hashmap K V) (key : K) :
    Bool :=
  (hashmap_get hashF m key).isSome

/-- Model of `hashmap_size`.  Note the C function performs no `NULL` check at
all (it dereferences unconditionally), so only non-`NULL` tables are
representable here. -/
def hashmap_size (m : Hashmap K V) : Nat :=
  m.size

/-- Model of `hashmap_free` on a non-`NULL` table: release everything and
memset the struct to zero. -/
def hashmap_free (_ : Hashmap K V) : Hashmap K V :=
  Hashmap.empty

/-- Model of `hashmap_duplicate` (the `dest` state it produces from `src`):
zeroed when `src.capacity == 0`, otherwise a same-capacity array of
deep-copied chains with `size`, `capacity`, `buckets_filled` copied. -/
def hashmap_duplicate (src : Hashmap K V) : Hashmap K V :=
  if src.capacity = 0 then Hashmap.empty
  else
    { buckets := some (src.chains.map hashmap_list_duplicate),
      size := src.size, capacity := src.capacity,
      buckets_filled := src.buckets_filled }

/-- Model of `hashmap_clear` on a non-`NULL` table: free every chain and reset
each bucket to empty (a no-op on the `NULL` bucket array, whose capacity is 0
in every state the code admits), zero `size` and `buckets_filled`, keep
`capacity` and the allocation. -/
def hashmap_clear (m : Hashmap K V) : Hashmap K V :=
  { m with
    buckets := m.buckets.map (fun bs => bs.map (fun _ => ([] : List (K × V)))),
    size := 0, buckets_filled := 0 }

/-- Nullable wrapper of `hashmap_insert` under `HASHMAP_NO_PANIC_ON_NULL`:
the C code returns `-1` when `map == NULL`. -/
def hashmap_insert_np [DecidableEq K] (hashF : K → Nat)
    (m : Option (Hashmap K V)) (key : K) (value : V) :
    Option (Hashmap K V) × Int :=
  match m with
  | none => (none, -1)
  | some m =>
    let r := hashmap_insert hashF m key value
    (some r.1, r.2)

/-- Nullable wrapper of `hashmap_remove` under `HASHMAP_NO_PANIC_ON_NULL`:
the C code returns `-1` when `map == NULL`.  The `Int` is the C return value
(`1` found, `0` not found, `-1` null). -/
def hashmap_remove_np [DecidableEq K] (hashF : K → Nat)
    (m : Option (Hashmap K V)) (key : K) : Option (Hashmap K V) × Int :=
  match m with
  | none => (none, -1)
  | some m =>
    let r := hashmap_remove hashF m key
    (some r.1, if r.2.isSome then 1 else 0)

/-- Nullable wrapper of `hashmap_get` under `HASHMAP_NO_PANIC_ON_NULL`: the C
code returns `-1` when `map == NULL` without touching `*out`.  The result is
(C return value, value written to `*out`). -/
def hashmap_get_np [DecidableEq K] (hashF : K → Nat) (m : Option (Hashmap K V))
    (key : K) : Int × Option V :=
  match m with
  | none => (-1, none)
  | some m =>
    match hashmap_get hashF m key with
    | some v => (1, some v)
    | none => (0, none)

/-- Nullable wrapper of `hashmap_has` under `HASHMAP_NO_PANIC_ON_NULL`:
`hashmap_has` forwards `hashmap_get`'s return value, hence `-1` on `NULL`. -/
def hashmap_has_np [DecidableEq K] (hashF : K → Nat) (m : Option (Hashmap K V))
    (key : K) : Int :=
  (hashmap_get_np hashF m key).1

/-- Nullable wrapper of `hashmap_free` under `HASHMAP_NO_PANIC_ON_NULL`:
silent no-op on `NULL`. -/
def hashmap_free_np (m : Option (Hashmap K V)) : Option (Hashmap K V) :=
  match m with
  | none => none
  | some m => some (hashmap_free m)

/-- Well-formedness of an allocated table: the bucket array is present with
length `capacity`, a nonzero power of two below `2 ^ 64` (`size_t` range);
every entry sits in the bucket selected by its key's hash index; keys are
globally distinct; `size` counts the entries and `buckets_filled` the
non-empty buckets.  These are the states reachable through the API, and they
imply every `hashmap_assert` invariant of the source. -/
structure WFA (hashF : K → Nat) (m : Hashmap K V) : Prop where
  h_some : m.buckets.isSome
  h_len : m.chains.length = m.capacity
  h_pow : ∃ t, m.capacity = 2 ^ t
  h_lt : m.capacity < 2 ^ 64
  h_bucket : ∀ i, i < m.chains.length → ∀ p, p ∈ m.chains.getD i [] →
    hashF p.1 &&& (m.capacity - 1) = i
  h_nodup : m.keyList.Nodup
  h_size : m.size = m.entries.length
  h_filled : m.buckets_filled = (m.chains.countP (fun b => !b.isEmpty))

/-- Well-formedness of any table state: either the zeroed empty state or an
allocated well-formed state. -/
def WF (hashF : K → Nat) (m : Hashmap K V) : Prop :=
  m = Hashmap.empty ∨ WFA hashF m

/-- One public table operation, for stating "after any sequence of
operations" claims.  `getq`, `hasq` and `iter` do not modify the table
(`hashmap_iterate` only threads the caller's context; its callback receives
key and value by value and has no handle on the table). -/
inductive TableOp (K : Type u) (V : Type v) where
  | init : TableOp K V
  | ins (key : K) (value : V) : TableOp K V
  | rmv (key : K) : TableOp K V
  | getq (key : K) : TableOp K V
  | hasq (key : K) : TableOp K V
  | grw : TableOp K V
  | iter : TableOp K V
  | dup : TableOp K V
  | clr : TableOp K V
  | fre : TableOp K V

/-- The table state after one operation. -/
def runTableOp [DecidableEq K] (hashF : K → Nat) (m : Hashmap K V) :
    TableOp K V → Hashmap K V
  | .init => hashmap_init
  | .ins key value => (hashmap_insert hashF m key value).1
  | .rmv key => (hashmap_remove hashF m key).1
  | .getq _ => m
  | .hasq _ => m
  | .grw => hashmap_grow hashF m
  | .iter => m
  | .dup => hashmap_duplicate m
  | .clr => hashmap_clear m
  | .fre => hashmap_free m

/-- The table state after a sequence of operations. -/
def runTableOps [DecidableEq K] (hashF : K → Nat) (m : Hashmap K V)
    (ops : List (TableOp K V)) : Hashmap K V :=
  ops.foldl (runTableOp hashF) m

/-- An insert-or-grow operation, for the round-trip claim. -/
inductive InsOp (K : Type u) (V : Type v) where
  | ins (key : K) (value : V) : InsOp K V
  | grw : InsOp K V

/-- The table state after a sequence of inserts and explicit growths. -/
def runInsOps [DecidableEq K] (hashF : K → Nat) (m : Hashmap K V)
    (ops : List (InsOp K V)) : Hashmap K V :=
  ops.foldl
    (fun m op =>
      match op with
      | .ins key value => (hashmap_insert hashF m key value).1
      | .grw => hashmap_grow hashF m) m

/-- The value of the last insert of key `k` in a sequence of operations,
starting from a default `d` (the value `k` currently maps to). -/
def lastInsertVal [DecidableEq K] (d : Option V) (ops : List (InsOp K V))
    (k : K) : Option V :=
  ops.foldl
    (fun acc op =>
      match op with
      | .ins key value => if key = k then some value else acc
      | .grw => acc) d

/-- Instrumented run of a chain iteration (mirrors `hashmap_list_iterate`),
recording the entries on which the callback is invoked: the visited list, the
final context, and whether the iteration completed (`true`) or was halted by
the callback (`false`). -/
def iterationVisits (callback : K → V → γ → γ × Bool) :
    List (K × V) → γ → List (K × V) × γ × Bool
  | [], context => ([], context, true)
  | p :: tl, context =>
    let r := callback p.1 p.2 context
    if r.2 then
      let t := iterationVisits callback tl r.1
      (p :: t.1, t.2.1, t.2.2)
    else ([p], r.1, false)

/-- Entries whose key differs from `key` — the abstract effect of removing or
overwriting `key`. -/
def filterOutKey [DecidableEq K] (key : K) (l : List (K × V)) : List (K × V) :=
  l.filter (fun p => !decide (p.1 = key))

/-- Specification of an insert function: starting from a well-formed table it
produces a well-formed allocated table whose entries are those of the input
with `key` rebound to `value`; it reports `1` exactly when the key was already
present; and it leaves `capacity` untouched when the table is allocated and
the load factor is not exceeded (no growth happens). -/
def InsertSpec [DecidableEq K] (hashF : K → Nat)
    (ins : Hashmap K V → K → V → Hashmap K V × Int) : Prop :=
  ∀ m key value, WF hashF m →
    WFA hashF (ins m key value).1 ∧
    ((ins m key value).1.entries).Perm
      ((key, value) :: filterOutKey key m.entries) ∧
    (ins m key value).2 = (if key ∈ m.keyList then 1 else 0) ∧
    (m.buckets.isSome → 4 * m.buckets_filled ≤ 3 * m.capacity →
      (ins m key value).1.capacity = m.capacity)

/-- The part of a grow function's behavior `hashmap_insert` relies on: from a
well-formed table it produces a well-formed allocated table with the same
entries (up to order) and the same `size`. -/
def GrowSpec [DecidableEq K] (hashF : K → Nat)
    (grw : Hashmap K V → Hashmap K V) : Prop :=
  ∀ m, WF hashF m →
    WFA hashF (grw m) ∧ ((grw m).entries).Perm m.entries ∧
    (grw m).size = m.size

/-- Keys of the concrete capacity-8 table used to exhibit a growth to
capacity 32 (hash function `id`): seven buckets filled, fourteen entries,
whose rehash into sixteen buckets fills thirteen of them and then re-triggers
the threshold mid-rehash. -/
def c5Keys : List Nat := [1, 9, 2, 10, 3, 11, 4, 12, 5, 13, 6, 14, 22, 8]

/-- The concrete capacity-8 table built by inserting `c5Keys` (value 0) into
a fresh table. -/
def c5Map : Hashmap Nat Nat :=
  c5Keys.foldl (fun m k => (hashmap_insert id m k 0).1) Hashmap.empty

/-- A concrete capacity-8 table with seven of eight buckets occupied (eight
distinct keys, hash function `id`), realizing the spec's scenario of a
capacity-8 table whose occupancy exceeds 0.75. -/
def c5ScenarioMap : Hashmap Nat Nat :=
  ([0, 1, 2, 3, 4, 5, 8, 6] : List Nat).foldl
    (fun m k => (hashmap_insert id m k 0).1) Hashmap.empty

/-! ## List-level lemmas -/

theorem nodup_middle {α : Type u} {X Y : List α} {a : α}
    (h : (X ++ a :: Y).Nodup) : a ∉ X ++ Y ∧ (X ++ Y).Nodup := by
  have hp : (X ++ a :: Y).Perm (a :: (X ++ Y)) := List.perm_middle
  have h2 := hp.nodup h
  exact ⟨(List.nodup_cons.mp h2).1, (List.nodup_cons.mp h2).2⟩

theorem filterOutKey_eq_self [DecidableEq K] {key : K} {l : List (K × V)}
    (h : key ∉ l.map Prod.fst) : filterOutKey key l = l := by
  rw [filterOutKey, List.filter_eq_self]
  intro p hp
  have hne : p.1 ≠ key := fun he => h (he ▸ List.mem_map_of_mem Prod.fst hp)
  simp [hne]

theorem filterOutKey_append [DecidableEq K] {key : K} {l₁ l₂ : List (K × V)} :
    filterOutKey key (l₁ ++ l₂) = filterOutKey key l₁ ++ filterOutKey key l₂ :=
  List.filter_append _ _

theorem filterOutKey_cons_self [DecidableEq K] {key : K} {v : V}
    {l : List (K × V)} : filterOutKey key ((key, v) :: l) = filterOutKey key l := by
  simp [filterOutKey]

theorem filterOutKey_nil [DecidableEq K] {key : K} :
    filterOutKey key ([] : List (K × V)) = [] := rfl

theorem hashmap_list_find_cons_self [DecidableEq K] {k : K} {v : V}
    {l : List (K × V)} : hashmap_list_find ((k, v) :: l) k = some v := by
  simp [hashmap_list_find, hashmap_compare_keys]

theorem hashmap_list_find_eq_none [DecidableEq K] {l : List (K × V)} {k : K}
    (h : k ∉ l.map Prod.fst) : hashmap_list_find l k = none := by
  induction l with
  | nil => rfl
  | cons p tl ih =>
    simp only [List.map_cons, List.mem_cons, not_or] at h
    rw [hashmap_list_find]
    have hne : p.1 ≠ k := Ne.symm h.1
    simp only [hashmap_compare_keys]
    rw [if_neg (by simpa using hne)]
    exact ih h.2

theorem hashmap_list_find_append_left [DecidableEq K] {X Y : List (K × V)}
    {k : K} (h : k ∉ X.map Prod.fst) :
    hashmap_list_find (X ++ Y) k = hashmap_list_find Y k := by
  induction X with
  | nil => rfl
  | cons p tl ih =>
    simp only [List.map_cons, List.mem_cons, not_or] at h
    rw [List.cons_append, hashmap_list_find]
    have hne : p.1 ≠ k := Ne.symm h.1
    simp only [hashmap_compare_keys]
    rw [if_neg (by simpa using hne)]
    exact ih h.2

theorem hashmap_list_find_mem [DecidableEq K] {l : List (K × V)} {k : K} {v : V}
    (h : hashmap_list_find l k = some v) : (k, v) ∈ l := by
  induction l with
  | nil => exact absurd h (by simp [hashmap_list_find])
  | cons p tl ih =>
    rw [hashmap_list_find] at h
    by_cases hp : p.1 = k
    · rw [if_pos (by simp [hashmap_compare_keys, hp])] at h
      have hv : p.2 = v := Option.some.inj h
      have hpv : p = (k, v) := by
        calc p = (p.1, p.2) := rfl
          _ = (k, v) := by rw [hp, hv]
      exact hpv ▸ List.mem_cons_self p tl
    · rw [if_neg (by simp [hashmap_compare_keys, hp])] at h
      exact List.mem_cons_of_mem _ (ih h)

theorem hashmap_list_find_of_mem_nodup [DecidableEq K] {l : List (K × V)}
    {k : K} {v : V} (hd : (l.map Prod.fst).Nodup) (hm : (k, v) ∈ l) :
    hashmap_list_find l k = some v := by
  obtain ⟨X, Y, rfl⟩ := List.append_of_mem hm
  have hX : k ∉ X.map Prod.fst := by
    have : (X.map Prod.fst ++ k :: Y.map Prod.fst).Nodup := by
      simpa using hd
    exact fun hk => (nodup_middle this).1 (List.mem_append_left _ hk)
  rw [hashmap_list_find_append_left hX, hashmap_list_find_cons_self]

theorem hashmap_list_insert_cases [DecidableEq K] (l : List (K × V)) (k : K)
    (v : V) :
    (k ∉ l.map Prod.fst ∧ hashmap_list_insert l k v = (l ++ [(k, v)], false)) ∨
    (∃ l₁ w l₂, l = l₁ ++ (k, w) :: l₂ ∧ k ∉ l₁.map Prod.fst ∧
      hashmap_list_insert l k v = (l₁ ++ (k, v) :: l₂, true)) := by
  induction l with
  | nil => left; simp [hashmap_list_insert]
  | cons p tl ih =>
    by_cases hp : k = p.1
    · right
      refine ⟨[], p.2, tl, ?_, by simp, ?_⟩
      · simp only [List.nil_append, List.cons.injEq, and_true]
        calc p = (p.1, p.2) := rfl
          _ = (k, p.2) := by rw [hp]
      · rw [hashmap_list_insert]
        simp [hashmap_compare_keys, hp]
    · rcases ih with ⟨h1, h2⟩ | ⟨l₁, w, l₂, he, hn, hr⟩
      · left
        constructor
        · simp only [List.map_cons, List.mem_cons, not_or]
          exact ⟨hp, h1⟩
        · rw [hashmap_list_insert]
          simp [hashmap_compare_keys, hp, h2]
      · right
        refine ⟨p :: l₁, w, l₂, by rw [he, List.cons_append], ?_, ?_⟩
        · simp only [List.map_cons, List.mem_cons, not_or]
          exact ⟨hp, hn⟩
        · rw [hashmap_list_insert]
          simp [hashmap_compare_keys, hp, hr]

theorem hashmap_list_remove_cases [DecidableEq K] (l : List (K × V)) (k : K) :
    (k ∉ l.map Prod.fst ∧ hashmap_list_remove l k = (l, none)) ∨
    (∃ l₁ w l₂, l = l₁ ++ (k, w) :: l₂ ∧ k ∉ l₁.map Prod.fst ∧
      hashmap_list_remove l k = (l₁ ++ l₂, some w)) := by
  induction l with
  | nil => left; simp [hashmap_list_remove]
  | cons p tl ih =>
    by_cases hp : p.1 = k
    · right
      refine ⟨[], p.2, tl, ?_, by simp, ?_⟩
      · simp only [List.nil_append, List.cons.injEq, and_true]
        calc p = (p.1, p.2) := rfl
          _ = (k, p.2) := by rw [hp]
      · rw [hashmap_list_remove]
        simp [hashmap_compare_keys, hp]
    · rcases ih with ⟨h1, h2⟩ | ⟨l₁, w, l₂, he, hn, hr⟩
      · left
        constructor
        · simp only [List.map_cons, List.mem_cons, not_or]
          exact ⟨fun he => hp he.symm, h1⟩
        · rw [hashmap_list_remove]
          simp [hashmap_compare_keys, hp, h2]
      · right
        refine ⟨p :: l₁, w, l₂, by rw [he, List.cons_append], ?_, ?_⟩
        · simp only [List.map_cons, List.mem_cons, not_or]
          exact ⟨fun he => hp he.symm, hn⟩
        · rw [hashmap_list_remove]
          simp [hashmap_compare_keys, hp, hr]

theorem hashmap_list_duplicate_eq (l : List (K × V)) :
    hashmap_list_duplicate l = l := by
  induction l with
  | nil => rfl
  | cons p tl ih => rw [hashmap_list_duplicate, ih]

/-! ## Bucket-array decomposition and counting lemmas -/

theorem list_decomp_getD {α : Type u} (bs : List α) (i : Nat)
    (hi : i < bs.length) (d : α) :
    bs = bs.take i ++ bs.getD i d :: bs.drop (i + 1) := by
  conv_lhs => rw [← List.take_append_drop i bs]
  rw [List.drop_eq_getElem_cons hi, List.getD_eq_getElem?_getD,
    List.getElem?_eq_getElem hi]
  rfl

theorem list_set_decomp {α : Type u} (bs : List α) (i : Nat)
    (hi : i < bs.length) (x : α) :
    bs.set i x = bs.take i ++ x :: bs.drop (i + 1) := by
  rw [List.set_eq_take_append_cons_drop, if_pos hi]

theorem getD_set_self {α : Type u} (bs : List α) {i : Nat}
    (hi : i < bs.length) (x d : α) : (bs.set i x).getD i d = x := by
  rw [List.getD_eq_getElem?_getD, List.getElem?_set_self hi]
  rfl

theorem getD_set_ne {α : Type u} (bs : List α) {i j : Nat} (h : i ≠ j)
    (x d : α) : (bs.set i x).getD j d = bs.getD j d := by
  rw [List.getD_eq_getElem?_getD, List.getElem?_set_ne h,
    ← List.getD_eq_getElem?_getD]

theorem countP_nonempty_le_flatten_length {α : Type u} (bs : List (List α)) :
    bs.countP (fun b => !b.isEmpty) ≤ bs.flatten.length := by
  induction bs with
  | nil => simp
  | cons b rest ih =>
    rw [List.countP_cons, List.flatten_cons, List.length_append]
    cases b with
    | nil => simpa using ih
    | cons x xs =>
      simp only [List.isEmpty_cons, Bool.not_false, if_true, List.length_cons]
      omega

theorem flatten_replicate_nil {α : Type u} (n : Nat) :
    (List.replicate n ([] : List α)).flatten = [] := by
  induction n with
  | zero => rfl
  | succ n ih =>
    rw [List.replicate_succ, List.flatten_cons, ih]
    rfl

theorem countP_nonempty_replicate_nil {α : Type u} (n : Nat) :
    (List.replicate n ([] : List α)).countP (fun b => !b.isEmpty) = 0 := by
  induction n with
  | zero => rfl
  | succ n ih => rw [List.replicate_succ, List.countP_cons]; simp [ih]

/-! ## Basic consequences of well-formedness -/

theorem WFA.cap_pos {hashF : K → Nat} {m : Hashmap K V} (h : WFA hashF m) :
    0 < m.capacity := by
  obtain ⟨t, ht⟩ := h.h_pow
  rw [ht]
  exact pow_pos (by norm_num) t

theorem WFA.bf_le_cap {hashF : K → Nat} {m : Hashmap K V} (h : WFA hashF m) :
    m.buckets_filled ≤ m.capacity := by
  rw [h.h_filled, ← h.h_len]
  exact List.countP_le_length _

theorem WFA.bf_le_size {hashF : K → Nat} {m : Hashmap K V} (h : WFA hashF m) :
    m.buckets_filled ≤ m.size := by
  rw [h.h_filled, h.h_size, Hashmap.entries]
  exact countP_nonempty_le_flatten_length _

theorem WFA.buckets_eq {hashF : K → Nat} {m : Hashmap K V} (h : WFA hashF m) :
    m.buckets = some m.chains := by
  obtain ⟨bs, hbs⟩ := Option.isSome_iff_exists.mp h.h_some
  rw [hbs, Hashmap.chains, hbs]
  rfl

theorem WFA.isNone_false {hashF : K → Nat} {m : Hashmap K V}
    (h : WFA hashF m) : m.buckets.isNone = false := by
  rw [h.buckets_eq]
  rfl

theorem hash_index_lt_capacity (hashF : K → Nat) (m : Hashmap K V) (key : K)
    (hc : 0 < m.capacity) : hashmap_hash_index hashF m key < m.capacity :=
  lt_of_le_of_lt Nat.and_le_right (Nat.sub_lt hc (by norm_num))

/-! ## Membership characterizations of lookup -/

theorem mem_entries_of_mem_bucket {m : Hashmap K V} {i : Nat} {p : K × V}
    (hp : p ∈ m.chains.getD i []) : p ∈ m.entries := by
  by_cases hi : i < m.chains.length
  · have he : m.chains.getD i [] = m.chains[i] := by
      rw [List.getD_eq_getElem?_getD, List.getElem?_eq_getElem hi]
      rfl
    rw [he] at hp
    exact List.mem_flatten.mpr ⟨_, List.getElem_mem hi, hp⟩
  · rw [List.getD_eq_getElem?_getD,
      List.getElem?_eq_none (le_of_not_lt hi)] at hp
    simp at hp

theorem mem_bucket_of_mem_entries {hashF : K → Nat} {m : Hashmap K V}
    (hw : WFA hashF m) {p : K × V} (hp : p ∈ m.entries) :
    p ∈ m.chains.getD (hashmap_hash_index hashF m p.1) [] := by
  rw [Hashmap.entries] at hp
  obtain ⟨b, hb, hpb⟩ := List.mem_flatten.mp hp
  obtain ⟨j, hj, hbj⟩ := List.mem_iff_getElem.mp hb
  have hgd : m.chains.getD j [] = b := by
    rw [List.getD_eq_getElem?_getD, List.getElem?_eq_getElem hj, hbj]
    rfl
  have hidx : hashF p.1 &&& (m.capacity - 1) = j :=
    hw.h_bucket j hj p (by rw [hgd]; exact hpb)
  rw [hashmap_hash_index, hidx, hgd]
  exact hpb

theorem bucket_keys_nodup {hashF : K → Nat} {m : Hashmap K V}
    (hw : WFA hashF m) (i : Nat) :
    ((m.chains.getD i []).map Prod.fst).Nodup := by
  by_cases hi : i < m.chains.length
  · have he : m.chains.getD i [] = m.chains[i] := by
      rw [List.getD_eq_getElem?_getD, List.getElem?_eq_getElem hi]
      rfl
    have hsub : (m.chains.getD i []).Sublist m.entries := by
      rw [he, Hashmap.entries]
      exact List.sublist_flatten_of_mem (List.getElem_mem hi)
    exact List.Nodup.sublist (hsub.map Prod.fst) hw.h_nodup
  · rw [List.getD_eq_getElem?_getD,
      List.getElem?_eq_none (le_of_not_lt hi)]
    simp

theorem hashmap_get_eq_find [DecidableEq K] {hashF : K → Nat} {m : Hashmap K V}
    (hw : WFA hashF m) (k : K) :
    hashmap_get hashF m k =
      hashmap_list_find (m.chains.getD (hashmap_hash_index hashF m k) []) k := by
  rw [hashmap_get, if_neg]
  rw [hw.isNone_false]
  simp

theorem hashmap_get_eq_some_iff [DecidableEq K] {hashF : K → Nat}
    {m : Hashmap K V} (hw : WFA hashF m) {k : K} {v : V} :
    hashmap_get hashF m k = some v ↔ (k, v) ∈ m.entries := by
  rw [hashmap_get_eq_find hw]
  constructor
  · intro h
    exact mem_entries_of_mem_bucket (hashmap_list_find_mem h)
  · intro h
    exact hashmap_list_find_of_mem_nodup (bucket_keys_nodup hw _)
      (mem_bucket_of_mem_entries hw h)

theorem hashmap_get_eq_none_iff [DecidableEq K] {hashF : K → Nat}
    {m : Hashmap K V} (hw : WFA hashF m) {k : K} :
    hashmap_get hashF m k = none ↔ k ∉ m.keyList := by
  constructor
  · intro h hk
    obtain ⟨p, hp, he⟩ := List.mem_map.mp hk
    have hpk : p = (k, p.2) := by
      calc p = (p.1, p.2) := rfl
        _ = (k, p.2) := by rw [he]
    have := (hashmap_get_eq_some_iff hw).mpr (hpk ▸ hp)
    rw [h] at this
    exact Option.noConfusion this
  · intro h
    rw [hashmap_get_eq_find hw]
    apply hashmap_list_find_eq_none
    intro hk
    apply h
    obtain ⟨p, hp, he⟩ := List.mem_map.mp hk
    exact List.mem_map.mpr ⟨p, mem_entries_of_mem_bucket hp, he⟩

theorem hashmap_get_empty [DecidableEq K] (hashF : K → Nat) (k : K) :
    hashmap_get hashF (Hashmap.empty : Hashmap K V) k = none := rfl

theorem entries_empty : (Hashmap.empty : Hashmap K V).entries = [] := rfl

theorem hashmap_get_eq_of_perm [DecidableEq K] {hashF : K → Nat}
    {m m' : Hashmap K V} (hw : WF hashF m) (hw' : WFA hashF m')
    (hp : m'.entries.Perm m.entries) (k : K) :
    hashmap_get hashF m' k = hashmap_get hashF m k := by
  rcases hw with rfl | hw
  · rw [entries_empty] at hp
    have hnil : m'.entries = [] := hp.eq_nil
    rw [hashmap_get_empty]
    apply (hashmap_get_eq_none_iff hw').mpr
    rw [Hashmap.keyList, hnil]
    simp
  · cases hg : hashmap_get hashF m k with
    | some v =>
      exact (hashmap_get_eq_some_iff hw').mpr
        (hp.mem_iff.mpr ((hashmap_get_eq_some_iff hw).mp hg))
    | none =>
      apply (hashmap_get_eq_none_iff hw').mpr
      intro hk
      apply (hashmap_get_eq_none_iff hw).mp hg
      exact ((hp.map Prod.fst).mem_iff).mp hk

/-! ## Iteration lemmas -/

theorem hashmap_list_iterate_append (cb : K → V → γ → γ × Bool)
    (l₁ l₂ : List (K × V)) (ctx : γ) :
    hashmap_list_iterate cb (l₁ ++ l₂) ctx =
      (if (hashmap_list_iterate cb l₁ ctx).2 then
        hashmap_list_iterate cb l₂ (hashmap_list_iterate cb l₁ ctx).1
      else hashmap_list_iterate cb l₁ ctx) := by
  induction l₁ generalizing ctx with
  | nil => simp [hashmap_list_iterate]
  | cons p tl ih =>
    rw [List.cons_append, hashmap_list_iterate, hashmap_list_iterate]
    cases hb : (cb p.1 p.2 ctx).2 with
    | true => simp only [if_true]; exact ih _
    | false => simp

theorem hashmap_iterate_go_eq_flatten (cb : K → V → γ → γ × Bool)
    (bs : List (List (K × V))) (ctx : γ) :
    hashmap_iterate_go cb bs ctx = hashmap_list_iterate cb bs.flatten ctx := by
  induction bs generalizing ctx with
  | nil => rfl
  | cons b rest ih =>
    rw [hashmap_iterate_go, List.flatten_cons, hashmap_list_iterate_append]
    cases hb : (hashmap_list_iterate cb b ctx).2 with
    | true => simp only [hb, if_true]; exact ih _
    | false =>
      simp only [hb, Bool.false_eq_true, if_false]
      have : hashmap_list_iterate cb b ctx =
          ((hashmap_list_iterate cb b ctx).1, false) := by
        rw [← hb]
      rw [← this]

theorem hashmap_list_iterate_always (cb : K → V → γ → γ × Bool)
    (h : ∀ k v c, (cb k v c).2 = true) (l : List (K × V)) (ctx : γ) :
    hashmap_list_iterate cb l ctx =
      (l.foldl (fun c p => (cb p.1 p.2 c).1) ctx, true) := by
  induction l generalizing ctx with
  | nil => rfl
  | cons p tl ih =>
    rw [hashmap_list_iterate, if_pos (h p.1 p.2 ctx), ih, List.foldl_cons]

theorem hashmap_iterate_always (m : Hashmap K V) (cb : K → V → γ → γ × Bool)
    (h : ∀ k v c, (cb k v c).2 = true) (ctx : γ) :
    hashmap_iterate m (some cb) ctx =
      m.entries.foldl (fun c p => (cb p.1 p.2 c).1) ctx := by
  rw [hashmap_iterate, hashmap_iterate_go_eq_flatten,
    hashmap_list_iterate_always cb h, Hashmap.entries]

theorem hashmap_iterate_none (m : Hashmap K V) (ctx : γ) :
    hashmap_iterate m (none : Option (K → V → γ → γ × Bool)) ctx = ctx := rfl

theorem hashmap_list_iterate_eq_visits (cb : K → V → γ → γ × Bool)
    (l : List (K × V)) (ctx : γ) :
    hashmap_list_iterate cb l ctx =
      ((iterationVisits cb l ctx).2.1, (iterationVisits cb l ctx).2.2) := by
  induction l generalizing ctx with
  | nil => rfl
  | cons p tl ih =>
    rw [hashmap_list_iterate, iterationVisits]
    cases hb : (cb p.1 p.2 ctx).2 with
    | true => simp only [if_true]; rw [ih]
    | false => simp

theorem iterationVisits_prefix (cb : K → V → γ → γ × Bool)
    (l : List (K × V)) (ctx : γ) :
    (iterationVisits cb l ctx).1 =
      l.take (iterationVisits cb l ctx).1.length := by
  induction l generalizing ctx with
  | nil => rfl
  | cons p tl ih =>
    rw [iterationVisits]
    cases hb : (cb p.1 p.2 ctx).2 with
    | true =>
      simp only [if_true, List.length_cons, List.take_succ_cons]
      rw [← ih]
    | false => simp

theorem iterationVisits_length_le (cb : K → V → γ → γ × Bool)
    (l : List (K × V)) (ctx : γ) :
    (iterationVisits cb l ctx).1.length ≤ l.length := by
  induction l generalizing ctx with
  | nil => exact le_refl _
  | cons p tl ih =>
    rw [iterationVisits]
    cases hb : (cb p.1 p.2 ctx).2 with
    | true =>
      simp only [if_true, List.length_cons]
      exact Nat.succ_le_succ (ih _)
    | false => simp

/-! ## Well-formedness of the initial table -/

theorem getD_replicate_nil {α : Type u} (n i : Nat) :
    (List.replicate n ([] : List α)).getD i [] = [] := by
  rw [List.getD_eq_getElem?_getD]
  cases h : (List.replicate n ([] : List α))[i]? with
  | none => rfl
  | some b =>
    obtain ⟨hlt, hb⟩ := List.getElem?_eq_some.mp h
    rw [← hb, List.getElem_replicate]
    rfl

theorem chains_init : (hashmap_init : Hashmap K V).chains = List.replicate 8 [] :=
  rfl

theorem WFA_init (hashF : K → Nat) : WFA hashF (hashmap_init : Hashmap K V) := by
  refine ⟨rfl, rfl, ⟨3, rfl⟩, by show (8 : Nat) < 2 ^ 64; norm_num,
    ?_, ?_, ?_, ?_⟩
  · intro i hi p hp
    rw [chains_init, getD_replicate_nil] at hp
    exact absurd hp (List.not_mem_nil p)
  · rw [Hashmap.keyList, Hashmap.entries, chains_init, flatten_replicate_nil]
    exact List.nodup_nil
  · rw [Hashmap.entries, chains_init, flatten_replicate_nil]
    rfl
  · rw [chains_init, countP_nonempty_replicate_nil]
    rfl

/-! ## Next-capacity facts -/

theorem hashmap_next_capacity_two_pow :
    ∀ t, t < 63 → hashmap_next_capacity (2 ^ t) = 2 ^ (t + 1) := by decide

theorem hashmap_next_capacity_top : hashmap_next_capacity (2 ^ 63) = 0 := by
  decide

/-! ## Specification of the placement step of insert -/

theorem mem_keyList_iff {m : Hashmap K V} {k : K} :
    k ∈ m.keyList ↔ ∃ w, (k, w) ∈ m.entries := by
  rw [Hashmap.keyList]
  constructor
  · intro h
    obtain ⟨p, hp, he⟩ := List.mem_map.mp h
    refine ⟨p.2, ?_⟩
    have hpe : p = (k, p.2) := by
      calc p = (p.1, p.2) := rfl
        _ = (k, p.2) := by rw [he]
    exact hpe ▸ hp
  · rintro ⟨w, hw⟩
    exact List.mem_map.mpr ⟨(k, w), hw, rfl⟩

theorem isEmpty_append_cons {α : Type u} (l₁ : List α) (x : α) (l₂ : List α) :
    (l₁ ++ x :: l₂).isEmpty = false := by
  cases l₁ <;> rfl

theorem hashmap_place_spec [DecidableEq K] {hashF : K → Nat} {m2 : Hashmap K V}
    (hw : WFA hashF m2) (key : K) (value : V) :
    WFA hashF (hashmap_place hashF m2 key value).1 ∧
    ((hashmap_place hashF m2 key value).1.entries).Perm
      ((key, value) :: filterOutKey key m2.entries) ∧
    ((hashmap_place hashF m2 key value).2 =
      if key ∈ m2.keyList then 1 else 0) ∧
    (hashmap_place hashF m2 key value).1.capacity = m2.capacity := by
  have hcap : 0 < m2.capacity := hw.cap_pos
  have hlt : hashmap_hash_index hashF m2 key < m2.chains.length := by
    rw [hw.h_len]
    exact hash_index_lt_capacity hashF m2 key hcap
  cases hb : m2.chains.getD (hashmap_hash_index hashF m2 key) [] with
  | nil =>
    have hres : hashmap_place hashF m2 key value =
        ({ m2 with
           buckets := some (m2.chains.set (hashmap_hash_index hashF m2 key)
             [(key, value)]),
           buckets_filled := m2.buckets_filled + 1,
           size := m2.size + 1 }, 0) := by
      simp only [hashmap_place, hb]
    rw [hres]
    have hchains : m2.chains = m2.chains.take (hashmap_hash_index hashF m2 key)
        ++ [] :: m2.chains.drop (hashmap_hash_index hashF m2 key + 1) := by
      have h := list_decomp_getD m2.chains (hashmap_hash_index hashF m2 key)
        hlt []
      rw [hb] at h
      exact h
    have hent : m2.entries =
        (m2.chains.take (hashmap_hash_index hashF m2 key)).flatten ++
        (m2.chains.drop (hashmap_hash_index hashF m2 key + 1)).flatten := by
      rw [Hashmap.entries]
      conv_lhs => rw [hchains]
      simp
    have hchains' : (m2.chains.set (hashmap_hash_index hashF m2 key)
        [(key, value)]) =
        m2.chains.take (hashmap_hash_index hashF m2 key) ++
        [(key, value)] :: m2.chains.drop (hashmap_hash_index hashF m2 key + 1) :=
      list_set_decomp _ _ hlt _
    have hent' : ({ m2 with
        buckets := some (m2.chains.set (hashmap_hash_index hashF m2 key)
          [(key, value)]),
        buckets_filled := m2.buckets_filled + 1,
        size := m2.size + 1 } : Hashmap K V).entries =
        (m2.chains.take (hashmap_hash_index hashF m2 key)).flatten ++
        (key, value) ::
        (m2.chains.drop (hashmap_hash_index hashF m2 key + 1)).flatten := by
      show (m2.chains.set (hashmap_hash_index hashF m2 key)
          [(key, value)]).flatten = _
      rw [hchains']
      simp
    have hfresh : key ∉ m2.keyList := by
      intro hk
      obtain ⟨w, hwmem⟩ := mem_keyList_iff.mp hk
      have hmem := mem_bucket_of_mem_entries hw hwmem
      rw [hb] at hmem
      exact absurd hmem (List.not_mem_nil _)
    have hkperm : (({ m2 with
        buckets := some (m2.chains.set (hashmap_hash_index hashF m2 key)
          [(key, value)]),
        buckets_filled := m2.buckets_filled + 1,
        size := m2.size + 1 } : Hashmap K V).keyList).Perm
        (key :: m2.keyList) := by
      rw [Hashmap.keyList, Hashmap.keyList, hent', hent]
      simp only [List.map_append, List.map_cons]
      exact List.perm_middle
    refine ⟨⟨rfl, ?_, hw.h_pow, hw.h_lt, ?_, ?_, ?_, ?_⟩, ?_, ?_, rfl⟩
    · show (m2.chains.set (hashmap_hash_index hashF m2 key) [(key, value)]).length =
        m2.capacity
      rw [List.length_set]
      exact hw.h_len
    · intro j hj p hp
      replace hj : j < (m2.chains.set (hashmap_hash_index hashF m2 key)
          [(key, value)]).length := hj
      replace hp : p ∈ (m2.chains.set (hashmap_hash_index hashF m2 key)
          [(key, value)]).getD j [] := hp
      show hashF p.1 &&& (m2.capacity - 1) = j
      by_cases hji : hashmap_hash_index hashF m2 key = j
      · subst hji
        rw [getD_set_self _ hlt] at hp
        rw [List.mem_singleton] at hp
        subst hp
        rfl
      · rw [getD_set_ne _ hji] at hp
        rw [List.length_set] at hj
        exact hw.h_bucket j hj p hp
    · exact hkperm.symm.nodup (List.nodup_cons.mpr ⟨hfresh, hw.h_nodup⟩)
    · show m2.size + 1 = _
      rw [hent', hw.h_size, hent]
      simp
      omega
    · show m2.buckets_filled + 1 =
        (m2.chains.set (hashmap_hash_index hashF m2 key)
          [(key, value)]).countP (fun b => !b.isEmpty)
      rw [hchains', List.countP_append, List.countP_cons]
      conv_lhs => rw [hw.h_filled, hchains]
      rw [List.countP_append, List.countP_cons]
      simp
      try omega
    · rw [hent']
      rw [filterOutKey, List.filter_eq_self.mpr ?_, hent]
      · exact List.perm_middle
      · intro p hp
        have hne : p.1 ≠ key := by
          intro he
          apply hfresh
          exact List.mem_map.mpr ⟨p, hp, he⟩
        simp [hne]
    · rw [if_neg hfresh]
  | cons hd tlt =>
    rcases hashmap_list_insert_cases (hd :: tlt) key value with
      ⟨hnotin, heq⟩ | ⟨l₁, w, l₂, hbd, hnotin₁, heq⟩
    · -- fresh key appended at the tail of the chain
      have hres : hashmap_place hashF m2 key value =
          ({ m2 with
             buckets := some (m2.chains.set (hashmap_hash_index hashF m2 key)
               ((hd :: tlt) ++ [(key, value)])),
             size := m2.size + 1 }, 0) := by
        simp only [hashmap_place, hb, heq]
        simp
      rw [hres]
      have hchains : m2.chains =
          m2.chains.take (hashmap_hash_index hashF m2 key)
          ++ (hd :: tlt) ::
            m2.chains.drop (hashmap_hash_index hashF m2 key + 1) := by
        have h := list_decomp_getD m2.chains (hashmap_hash_index hashF m2 key)
          hlt []
        rw [hb] at h
        exact h
      have hent : m2.entries =
          (m2.chains.take (hashmap_hash_index hashF m2 key)).flatten ++
          ((hd :: tlt) ++
          (m2.chains.drop (hashmap_hash_index hashF m2 key + 1)).flatten) := by
        rw [Hashmap.entries]
        conv_lhs => rw [hchains]
        simp
      have hchains' : (m2.chains.set (hashmap_hash_index hashF m2 key)
          ((hd :: tlt) ++ [(key, value)])) =
          m2.chains.take (hashmap_hash_index hashF m2 key) ++
          ((hd :: tlt) ++ [(key, value)]) ::
          m2.chains.drop (hashmap_hash_index hashF m2 key + 1) :=
        list_set_decomp _ _ hlt _
      have hent' : ({ m2 with
          buckets := some (m2.chains.set (hashmap_hash_index hashF m2 key)
            ((hd :: tlt) ++ [(key, value)])),
          size := m2.size + 1 } : Hashmap K V).entries =
          ((m2.chains.take (hashmap_hash_index hashF m2 key)).flatten ++
           (hd :: tlt)) ++ (key, value) ::
          (m2.chains.drop (hashmap_hash_index hashF m2 key + 1)).flatten := by
        show (m2.chains.set (hashmap_hash_index hashF m2 key)
            ((hd :: tlt) ++ [(key, value)])).flatten = _
        rw [hchains']
        simp [List.append_assoc]
      have hfresh : key ∉ m2.keyList := by
        intro hk
        obtain ⟨w, hwmem⟩ := mem_keyList_iff.mp hk
        have hmem := mem_bucket_of_mem_entries hw hwmem
        rw [hb] at hmem
        exact hnotin (List.mem_map.mpr ⟨(key, w), hmem, rfl⟩)
      have hkperm : (({ m2 with
          buckets := some (m2.chains.set (hashmap_hash_index hashF m2 key)
            ((hd :: tlt) ++ [(key, value)])),
          size := m2.size + 1 } : Hashmap K V).keyList).Perm
          (key :: m2.keyList) := by
        rw [Hashmap.keyList, Hashmap.keyList, hent', hent]
        simp only [List.map_append, List.map_cons]
        refine List.Perm.trans List.perm_middle ?_
        apply List.Perm.cons
        simp [List.append_assoc]
      refine ⟨⟨rfl, ?_, hw.h_pow, hw.h_lt, ?_, ?_, ?_, ?_⟩, ?_, ?_, rfl⟩
      · show (m2.chains.set (hashmap_hash_index hashF m2 key)
            ((hd :: tlt) ++ [(key, value)])).length = m2.capacity
        rw [List.length_set]
        exact hw.h_len
      · intro j hj p hp
        replace hj : j < (m2.chains.set (hashmap_hash_index hashF m2 key)
            ((hd :: tlt) ++ [(key, value)])).length := hj
        replace hp : p ∈ (m2.chains.set (hashmap_hash_index hashF m2 key)
            ((hd :: tlt) ++ [(key, value)])).getD j [] := hp
        show hashF p.1 &&& (m2.capacity - 1) = j
        by_cases hji : hashmap_hash_index hashF m2 key = j
        · subst hji
          rw [getD_set_self _ hlt] at hp
          rcases List.mem_append.mp hp with h1 | h2
          · exact hw.h_bucket _ hlt p (by rw [hb]; exact h1)
          · rw [List.mem_singleton] at h2
            subst h2
            rfl
        · rw [getD_set_ne _ hji] at hp
          rw [List.length_set] at hj
          exact hw.h_bucket j hj p hp
      · exact hkperm.symm.nodup (List.nodup_cons.mpr ⟨hfresh, hw.h_nodup⟩)
      · show m2.size + 1 = _
        rw [hent', hw.h_size, hent]
        simp
        omega
      · show m2.buckets_filled =
          (m2.chains.set (hashmap_hash_index hashF m2 key)
            ((hd :: tlt) ++ [(key, value)])).countP (fun b => !b.isEmpty)
        rw [hchains', List.countP_append, List.countP_cons]
        conv_lhs => rw [hw.h_filled, hchains]
        rw [List.countP_append, List.countP_cons]
        simp [isEmpty_append_cons]
        try omega
      · rw [hent']
        rw [filterOutKey, List.filter_eq_self.mpr ?_, hent]
        · refine List.Perm.trans List.perm_middle ?_
          apply List.Perm.cons
          simp [List.append_assoc]
        · intro p hp
          have hne : p.1 ≠ key := by
            intro he
            apply hfresh
            exact List.mem_map.mpr ⟨p, hp, he⟩
          simp [hne]
      · rw [if_neg hfresh]
    · -- existing key: value overwritten in place
      have hres : hashmap_place hashF m2 key value =
          ({ m2 with
             buckets := some (m2.chains.set (hashmap_hash_index hashF m2 key)
               (l₁ ++ (key, value) :: l₂)),
             size := m2.size }, 1) := by
        simp only [hashmap_place, hb, heq]
        simp
      rw [hres]
      have hchains : m2.chains =
          m2.chains.take (hashmap_hash_index hashF m2 key)
          ++ (l₁ ++ (key, w) :: l₂) ::
            m2.chains.drop (hashmap_hash_index hashF m2 key + 1) := by
        have h := list_decomp_getD m2.chains (hashmap_hash_index hashF m2 key)
          hlt []
        rw [hb, hbd] at h
        exact h
      have hent : m2.entries =
          (m2.chains.take (hashmap_hash_index hashF m2 key)).flatten ++
          ((l₁ ++ (key, w) :: l₂) ++
          (m2.chains.drop (hashmap_hash_index hashF m2 key + 1)).flatten) := by
        rw [Hashmap.entries]
        conv_lhs => rw [hchains]
        simp
      have hchains' : (m2.chains.set (hashmap_hash_index hashF m2 key)
          (l₁ ++ (key, value) :: l₂)) =
          m2.chains.take (hashmap_hash_index hashF m2 key) ++
          (l₁ ++ (key, value) :: l₂) ::
          m2.chains.drop (hashmap_hash_index hashF m2 key + 1) :=
        list_set_decomp _ _ hlt _
      have hent' : ({ m2 with
          buckets := some (m2.chains.set (hashmap_hash_index hashF m2 key)
            (l₁ ++ (key, value) :: l₂)),
          size := m2.size } : Hashmap K V).entries =
          ((m2.chains.take (hashmap_hash_index hashF m2 key)).flatten ++ l₁)
          ++ (key, value) :: (l₂ ++
          (m2.chains.drop (hashmap_hash_index hashF m2 key + 1)).flatten) := by
        show (m2.chains.set (hashmap_hash_index hashF m2 key)
            (l₁ ++ (key, value) :: l₂)).flatten = _
        rw [hchains']
        simp [List.append_assoc]
      have hkeq : m2.keyList =
          ((m2.chains.take (hashmap_hash_index hashF m2 key)).flatten.map
            Prod.fst ++ l₁.map Prod.fst) ++ key ::
          (l₂.map Prod.fst ++
           (m2.chains.drop (hashmap_hash_index hashF m2 key + 1)).flatten.map
            Prod.fst) := by
        rw [Hashmap.keyList, hent]
        simp [List.append_assoc]
      have hnm := (nodup_middle (hkeq ▸ hw.h_nodup)).1
      simp only [List.mem_append, not_or] at hnm
      obtain ⟨⟨hnmT, hnml₁⟩, hnml₂, hnmD⟩ := hnm
      have hkey_in : key ∈ m2.keyList := by
        apply mem_keyList_iff.mpr
        refine ⟨w, ?_⟩
        rw [hent]
        simp
      have hmapeq : ∀ (u : V),
          (((m2.chains.take (hashmap_hash_index hashF m2 key)).flatten ++
           (l₁ ++ (key, u) :: l₂) ++
           (m2.chains.drop (hashmap_hash_index hashF m2 key + 1)).flatten).map
            Prod.fst) = m2.keyList := by
        intro u
        rw [hkeq]
        simp [List.append_assoc]
      refine ⟨⟨rfl, ?_, hw.h_pow, hw.h_lt, ?_, ?_, ?_, ?_⟩, ?_, ?_, rfl⟩
      · show (m2.chains.set (hashmap_hash_index hashF m2 key)
            (l₁ ++ (key, value) :: l₂)).length = m2.capacity
        rw [List.length_set]
        exact hw.h_len
      · intro j hj p hp
        replace hj : j < (m2.chains.set (hashmap_hash_index hashF m2 key)
            (l₁ ++ (key, value) :: l₂)).length := hj
        replace hp : p ∈ (m2.chains.set (hashmap_hash_index hashF m2 key)
            (l₁ ++ (key, value) :: l₂)).getD j [] := hp
        show hashF p.1 &&& (m2.capacity - 1) = j
        by_cases hji : hashmap_hash_index hashF m2 key = j
        · subst hji
          rw [getD_set_self _ hlt] at hp
          rcases List.mem_append.mp hp with h1 | h2
          · refine hw.h_bucket _ hlt p ?_
            rw [hb, hbd]
            exact List.mem_append_left _ h1
          · rcases List.mem_cons.mp h2 with rfl | h3
            · rfl
            · refine hw.h_bucket _ hlt p ?_
              rw [hb, hbd]
              exact List.mem_append_right _ (List.mem_cons_of_mem _ h3)
        · rw [getD_set_ne _ hji] at hp
          rw [List.length_set] at hj
          exact hw.h_bucket j hj p hp
      · have hkeys' : ({ m2 with
            buckets := some (m2.chains.set (hashmap_hash_index hashF m2 key)
              (l₁ ++ (key, value) :: l₂)),
            size := m2.size } : Hashmap K V).keyList = m2.keyList := by
          rw [Hashmap.keyList, hent', hkeq]
          simp [List.append_assoc]
        rw [hkeys']
        exact hw.h_nodup
      · show m2.size = _
        rw [hent', hw.h_size, hent]
        simp
      · show m2.buckets_filled =
          (m2.chains.set (hashmap_hash_index hashF m2 key)
            (l₁ ++ (key, value) :: l₂)).countP (fun b => !b.isEmpty)
        rw [hchains', List.countP_append, List.countP_cons]
        conv_lhs => rw [hw.h_filled, hchains]
        rw [List.countP_append, List.countP_cons]
        simp [isEmpty_append_cons]
        try omega
      · have hfilter : filterOutKey key m2.entries =
            (m2.chains.take (hashmap_hash_index hashF m2 key)).flatten ++
            ((l₁ ++ l₂) ++
            (m2.chains.drop (hashmap_hash_index hashF m2 key + 1)).flatten) := by
          rw [hent, filterOutKey_append, filterOutKey_append,
            filterOutKey_append, filterOutKey_cons_self,
            filterOutKey_eq_self hnmT, filterOutKey_eq_self hnml₁,
            filterOutKey_eq_self hnml₂, filterOutKey_eq_self hnmD]
        rw [hent', hfilter]
        refine List.Perm.trans List.perm_middle (List.Perm.cons _ ?_)
        simp only [List.append_assoc]
        exact List.Perm.refl _
      · rw [if_pos hkey_in]

/-! ## Specification of the insert body -/

theorem hashmap_insert_body_spec [DecidableEq K] (hashF : K → Nat)
    (growFn : Hashmap K V → Hashmap K V)
    (hg : ∀ m', WFA hashF m' → WFA hashF (growFn m') ∧
      ((growFn m').entries).Perm m'.entries) :
    InsertSpec hashF (hashmap_insert_body hashF growFn) := by
  intro m key value hwf
  obtain ⟨m1, hm1eq, hm1w, hm1ent, hm1keys, hm1some⟩ :
      ∃ m1, (if m.buckets.isNone then hashmap_init else m) = m1 ∧
        WFA hashF m1 ∧ m1.entries = m.entries ∧ m1.keyList = m.keyList ∧
        (m.buckets.isSome = true → m1 = m) := by
    rcases hwf with rfl | hwa
    · refine ⟨hashmap_init, rfl, WFA_init hashF, rfl, rfl, ?_⟩
      intro h
      exact absurd h (by simp [Hashmap.empty])
    · have hn : m.buckets.isNone = false := hwa.isNone_false
      exact ⟨m, by simp [hn], hwa, rfl, rfl, fun _ => rfl⟩
  obtain ⟨m2, hm2eq, hm2w, hm2ent, hm2keys, hm2nogrow⟩ :
      ∃ m2, (if 4 * m1.buckets_filled > 3 * m1.capacity then growFn m1
          else m1) = m2 ∧
        WFA hashF m2 ∧ m2.entries.Perm m1.entries ∧
        (∀ k, k ∈ m2.keyList ↔ k ∈ m1.keyList) ∧
        (4 * m1.buckets_filled ≤ 3 * m1.capacity → m2 = m1) := by
    by_cases hl : 4 * m1.buckets_filled > 3 * m1.capacity
    · obtain ⟨hgw, hgp⟩ := hg m1 hm1w
      refine ⟨growFn m1, by rw [if_pos hl], hgw, hgp, ?_, ?_⟩
      · intro k
        rw [Hashmap.keyList, Hashmap.keyList]
        exact (hgp.map Prod.fst).mem_iff
      · intro hle
        exact absurd hl (not_lt.mpr hle)
    · exact ⟨m1, by rw [if_neg hl], hm1w, List.Perm.refl _, fun k => Iff.rfl,
        fun _ => rfl⟩
  have hib : hashmap_insert_body hashF growFn m key value =
      hashmap_place hashF m2 key value := by
    simp only [hashmap_insert_body]
    rw [hm1eq, hm2eq]
  rw [hib]
  obtain ⟨hpw, hpent, hpflag, hpcap⟩ := hashmap_place_spec hm2w key value
  refine ⟨hpw, ?_, ?_, ?_⟩
  · have hfp : (filterOutKey key m2.entries).Perm
        (filterOutKey key m.entries) := by
      rw [filterOutKey, filterOutKey, ← hm1ent]
      exact hm2ent.filter _
    exact hpent.trans (hfp.cons _)
  · rw [hpflag]
    by_cases hk : key ∈ m.keyList
    · rw [if_pos hk, if_pos ((hm2keys key).mpr (hm1keys ▸ hk))]
    · rw [if_neg hk, if_neg (fun h => hk (hm1keys ▸ (hm2keys key).mp h))]
  · intro hsome hle
    have hm1m : m1 = m := hm1some hsome
    have hm2m : m2 = m1 := hm2nogrow (by rw [hm1m]; exact hle)
    rw [hpcap, hm2m, hm1m]

/-! ## Specification of the rehash fold -/

theorem foldl_insert_spec [DecidableEq K] {hashF : K → Nat}
    (ins : Hashmap K V → K → V → Hashmap K V × Int)
    (hins : InsertSpec hashF ins) :
    ∀ (es : List (K × V)) (acc : Hashmap K V), WFA hashF acc →
      (acc.keyList ++ es.map Prod.fst).Nodup →
      WFA hashF (es.foldl (fun a p => (ins a p.1 p.2).1) acc) ∧
      ((es.foldl (fun a p => (ins a p.1 p.2).1) acc).entries).Perm
        (acc.entries ++ es) ∧
      (∀ C, acc.capacity = C → 4 * (acc.size + es.length) ≤ 3 * C →
        (es.foldl (fun a p => (ins a p.1 p.2).1) acc).capacity = C) := by
  intro es
  induction es with
  | nil =>
    intro acc hacc _
    refine ⟨hacc, by simp, ?_⟩
    intro C hC _
    simpa using hC
  | cons e tl ih =>
    intro acc hacc hnodup
    have hnodup0 : (acc.keyList ++ e.1 :: tl.map Prod.fst).Nodup := by
      simpa using hnodup
    have hefresh : e.1 ∉ acc.keyList := by
      intro hk
      exact (nodup_middle hnodup0).1 (List.mem_append_left _ hk)
    obtain ⟨hw1, hp1, _, hcap1⟩ := hins acc e.1 e.2 (Or.inr hacc)
    have hfe : filterOutKey e.1 acc.entries = acc.entries :=
      filterOutKey_eq_self hefresh
    have hstep_ent : ((ins acc e.1 e.2).1.entries).Perm (acc.entries ++ [e]) := by
      rw [hfe] at hp1
      exact hp1.trans (List.perm_append_singleton e acc.entries).symm
    have hkperm : ((ins acc e.1 e.2).1.keyList).Perm (e.1 :: acc.keyList) := by
      have h := hstep_ent.map Prod.fst
      simp only [List.map_append, List.map_cons, List.map_nil] at h
      exact h.trans (List.perm_append_singleton e.1 _)
    have hnodup' : ((ins acc e.1 e.2).1.keyList ++ tl.map Prod.fst).Nodup := by
      have hchain : (acc.keyList ++ e.1 :: tl.map Prod.fst).Perm
          ((ins acc e.1 e.2).1.keyList ++ tl.map Prod.fst) :=
        List.Perm.trans List.perm_middle ((hkperm.symm).append_right _)
      exact hchain.nodup hnodup0
    obtain ⟨ihw, ihent, ihcap⟩ := ih (ins acc e.1 e.2).1 hw1 hnodup'
    simp only [List.foldl_cons]
    refine ⟨ihw, ?_, ?_⟩
    · refine ihent.trans ?_
      refine List.Perm.trans (hstep_ent.append_right tl) ?_
      rw [List.append_assoc]
      exact List.Perm.refl _
    · intro C hC hle
      have hlen : (e :: tl : List (K × V)).length = tl.length + 1 := rfl
      rw [hlen] at hle
      have hbf : acc.buckets_filled ≤ acc.size := hacc.bf_le_size
      have hcap_step : (ins acc e.1 e.2).1.capacity = C := by
        rw [← hC]
        exact hcap1 hacc.h_some (by omega)
      have hsize_step : (ins acc e.1 e.2).1.size = acc.size + 1 := by
        rw [hw1.h_size, hstep_ent.length_eq, List.length_append,
          ← hacc.h_size]
        rfl
      refine ihcap C hcap_step ?_
      rw [hsize_step]
      omega

/-! ## Specification of the grow body -/

theorem hashmap_fresh_chains (n : Nat) :
    (hashmap_fresh n : Hashmap K V).chains = List.replicate n [] := rfl

theorem hashmap_fresh_entries (n : Nat) :
    (hashmap_fresh n : Hashmap K V).entries = [] := by
  show (List.replicate n ([] : List (K × V))).flatten = []
  exact flatten_replicate_nil n

theorem hashmap_fresh_keyList (n : Nat) :
    (hashmap_fresh n : Hashmap K V).keyList = [] := by
  rw [Hashmap.keyList, hashmap_fresh_entries]
  rfl

theorem WFA_fresh (hashF : K → Nat) (t : Nat) (hlt : 2 ^ t < 2 ^ 64) :
    WFA hashF (hashmap_fresh (2 ^ t) : Hashmap K V) := by
  refine ⟨rfl,
    by show (List.replicate (2 ^ t) ([] : List (K × V))).length = 2 ^ t; simp,
    ⟨t, rfl⟩, hlt, ?_, ?_, ?_, ?_⟩
  · intro i hi p hp
    rw [hashmap_fresh_chains, getD_replicate_nil] at hp
    exact absurd hp (List.not_mem_nil p)
  · rw [hashmap_fresh_keyList]
    exact List.nodup_nil
  · rw [hashmap_fresh_entries]
    rfl
  · rw [hashmap_fresh_chains]
    show (0 : Nat) = _
    rw [countP_nonempty_replicate_nil]

theorem hashmap_grow_body_master [DecidableEq K] (hashF : K → Nat)
    (ins : Hashmap K V → K → V → Hashmap K V × Int)
    (hins : InsertSpec hashF ins) :
    ∀ m, WF hashF m →
      WFA hashF (hashmap_grow_body ins m) ∧
      ((hashmap_grow_body ins m).entries).Perm m.entries ∧
      (hashmap_grow_body ins m).size = m.size ∧
      (m.buckets.isSome = true → m.capacity ≤ 2 ^ 24 →
        2 * m.size ≤ 3 * m.capacity →
        (hashmap_grow_body ins m).capacity = 2 * m.capacity) := by
  intro m hwf
  obtain ⟨m1, hm1eq, hm1w, hm1ent, hm1size, hm1some⟩ :
      ∃ m1, (if m.buckets.isNone then hashmap_init else m) = m1 ∧
        WFA hashF m1 ∧ m1.entries = m.entries ∧ m1.size = m.size ∧
        (m.buckets.isSome = true → m1 = m) := by
    rcases hwf with rfl | hwa
    · refine ⟨hashmap_init, rfl, WFA_init hashF, rfl, rfl, ?_⟩
      intro h
      exact absurd h (by simp [Hashmap.empty])
    · exact ⟨m, by simp [hwa.isNone_false], hwa, rfl, rfl, fun _ => rfl⟩
  obtain ⟨t, ht⟩ := hm1w.h_pow
  by_cases h1 : hashmap_next_capacity m1.capacity < m1.capacity
  · have hred : hashmap_grow_body ins m = m1 := by
      simp only [hashmap_grow_body]
      rw [hm1eq, if_pos h1]
    rw [hred, hm1ent, hm1size]
    refine ⟨hm1w, List.Perm.refl _, rfl, ?_⟩
    intro hsome hcap _
    exfalso
    have hm1m : m1 = m := hm1some hsome
    have ht24 : t ≤ 24 := by
      have h2t : (2 : Nat) ^ t ≤ 2 ^ 24 := by
        rw [← ht, hm1m]
        exact hcap
      exact (Nat.pow_le_pow_iff_right (by norm_num)).mp h2t
    have hnext : hashmap_next_capacity m1.capacity = 2 ^ (t + 1) := by
      rw [ht]
      exact hashmap_next_capacity_two_pow t (by omega)
    rw [hnext, ht] at h1
    exact absurd h1 (not_lt.mpr (Nat.pow_le_pow_right (by norm_num) (by omega)))
  · by_cases h2 : (2 ^ 64 - 1) / 8 < hashmap_next_capacity m1.capacity
    · have hred : hashmap_grow_body ins m = m1 := by
        simp only [hashmap_grow_body]
        rw [hm1eq, if_neg h1, if_pos h2]
      rw [hred, hm1ent, hm1size]
      refine ⟨hm1w, List.Perm.refl _, rfl, ?_⟩
      intro hsome hcap _
      exfalso
      have hm1m : m1 = m := hm1some hsome
      have ht24 : t ≤ 24 := by
        have h2t : (2 : Nat) ^ t ≤ 2 ^ 24 := by
          rw [← ht, hm1m]
          exact hcap
        exact (Nat.pow_le_pow_iff_right (by norm_num)).mp h2t
      have hnext : hashmap_next_capacity m1.capacity = 2 ^ (t + 1) := by
        rw [ht]
        exact hashmap_next_capacity_two_pow t (by omega)
      rw [hnext] at h2
      have h25 : (2 : Nat) ^ (t + 1) ≤ 2 ^ 25 :=
        Nat.pow_le_pow_right (by norm_num) (by omega)
      have hconst : (2 ^ 25 : Nat) ≤ (2 ^ 64 - 1) / 8 := by norm_num
      omega
    · have ht63 : t < 63 := by
        by_contra hge
        have hlt64 : t < 64 := by
          have hc := hm1w.h_lt
          rw [ht] at hc
          exact (Nat.pow_lt_pow_iff_right (by norm_num)).mp hc
        have hte : t = 63 := by omega
        apply h1
        rw [ht, hte, hashmap_next_capacity_top]
        exact pow_pos (by norm_num) 63
      have hnext : hashmap_next_capacity m1.capacity = 2 ^ (t + 1) := by
        rw [ht]
        exact hashmap_next_capacity_two_pow t ht63
      have hfW : WFA hashF
          (hashmap_fresh (hashmap_next_capacity m1.capacity) : Hashmap K V) := by
        rw [hnext]
        refine WFA_fresh hashF (t + 1) ?_
        have hle : hashmap_next_capacity m1.capacity ≤ (2 ^ 64 - 1) / 8 :=
          not_lt.mp h2
        rw [hnext] at hle
        have hconst : ((2 ^ 64 - 1) / 8 : Nat) < 2 ^ 64 := by norm_num
        omega
      have hiter : hashmap_iterate m1
          (some fun k v acc => ((ins acc k v).1, true))
          (hashmap_fresh (hashmap_next_capacity m1.capacity)) =
          m1.entries.foldl (fun a p => (ins a p.1 p.2).1)
          (hashmap_fresh (hashmap_next_capacity m1.capacity)) :=
        hashmap_iterate_always m1 _ (fun _ _ _ => rfl) _
      obtain ⟨hFw, hFent, hFcap⟩ := foldl_insert_spec ins hins m1.entries
        (hashmap_fresh (hashmap_next_capacity m1.capacity)) hfW
        (by rw [hashmap_fresh_keyList]; simpa using hm1w.h_nodup)
      have hFent' : ((m1.entries.foldl (fun a p => (ins a p.1 p.2).1)
          (hashmap_fresh (hashmap_next_capacity m1.capacity))).entries).Perm
          m1.entries := by
        refine hFent.trans ?_
        rw [hashmap_fresh_entries]
        exact List.Perm.refl _
      have hsize_eq : (m1.entries.foldl (fun a p => (ins a p.1 p.2).1)
          (hashmap_fresh (hashmap_next_capacity m1.capacity))).size =
          m1.size := by
        rw [hFw.h_size, hFent'.length_eq, hm1w.h_size]
      have hred : hashmap_grow_body ins m =
          m1.entries.foldl (fun a p => (ins a p.1 p.2).1)
          (hashmap_fresh (hashmap_next_capacity m1.capacity)) := by
        simp only [hashmap_grow_body]
        rw [hm1eq, if_neg h1, if_neg h2, hiter,
          if_neg (by rw [hsize_eq]; simp)]
      rw [hred]
      refine ⟨hFw, by rw [← hm1ent]; exact hFent',
        by rw [← hm1size]; exact hsize_eq, ?_⟩
      intro hsome hcap hsz
      have hm1m : m1 = m := hm1some hsome
      have hd : 2 * m.capacity = hashmap_next_capacity m1.capacity := by
        rw [hnext, ← hm1m, ht, pow_succ, Nat.mul_comm]
      rw [← hm1m] at hsz
      rw [hd]
      refine hFcap _ rfl ?_
      have hsz1 : m1.size = m1.entries.length := hm1w.h_size
      have hfs : (hashmap_fresh (hashmap_next_capacity m1.capacity) :
          Hashmap K V).size = 0 := rfl
      rw [hfs, ← hsz1, ← hd]
      omega

/-! ## The fueled operation pair satisfies the specifications -/

theorem hashmap_grow_body_vacuous [DecidableEq K] (hashF : K → Nat) :
    GrowSpec hashF
      (hashmap_grow_body (fun (m : Hashmap K V) (_ : K) (_ : V) => (m, 0))) := by
  intro m hwf
  obtain ⟨m1, hm1eq, hm1w, hm1ent, hm1size⟩ :
      ∃ m1, (if m.buckets.isNone then hashmap_init else m) = m1 ∧
        WFA hashF m1 ∧ m1.entries = m.entries ∧ m1.size = m.size := by
    rcases hwf with rfl | hwa
    · exact ⟨hashmap_init, rfl, WFA_init hashF, rfl, rfl⟩
    · exact ⟨m, by simp [hwa.isNone_false], hwa, rfl, rfl⟩
  by_cases h1 : hashmap_next_capacity m1.capacity < m1.capacity
  · have hred : hashmap_grow_body
        (fun (m : Hashmap K V) (_ : K) (_ : V) => (m, 0)) m = m1 := by
      simp only [hashmap_grow_body]
      rw [hm1eq, if_pos h1]
    rw [hred, hm1ent, hm1size]
    exact ⟨hm1w, List.Perm.refl _, rfl⟩
  · by_cases h2 : (2 ^ 64 - 1) / 8 < hashmap_next_capacity m1.capacity
    · have hred : hashmap_grow_body
          (fun (m : Hashmap K V) (_ : K) (_ : V) => (m, 0)) m = m1 := by
        simp only [hashmap_grow_body]
        rw [hm1eq, if_neg h1, if_pos h2]
      rw [hred, hm1ent, hm1size]
      exact ⟨hm1w, List.Perm.refl _, rfl⟩
    · have hconstfold : ∀ (l : List (K × V)) (x : Hashmap K V),
          l.foldl (fun c _ => c) x = x := by
        intro l
        induction l with
        | nil => intro x; rfl
        | cons p tl ih => intro x; rw [List.foldl_cons]; exact ih x
      have hiter : hashmap_iterate m1
          (some fun k v acc =>
            (((fun (m : Hashmap K V) (_ : K) (_ : V) => (m, 0)) acc k v).1,
              true))
          (hashmap_fresh (hashmap_next_capacity m1.capacity)) =
          hashmap_fresh (hashmap_next_capacity m1.capacity) := by
        rw [hashmap_iterate_always m1 _ (fun _ _ _ => rfl)]
        exact hconstfold m1.entries _
      by_cases hz : m1.size = 0
      · obtain ⟨t, ht⟩ := hm1w.h_pow
        have ht63 : t < 63 := by
          by_contra hge
          have hlt64 : t < 64 := by
            have hc := hm1w.h_lt
            rw [ht] at hc
            exact (Nat.pow_lt_pow_iff_right (by norm_num)).mp hc
          have hte : t = 63 := by omega
          apply h1
          rw [ht, hte, hashmap_next_capacity_top]
          exact pow_pos (by norm_num) 63
        have hnext : hashmap_next_capacity m1.capacity = 2 ^ (t + 1) := by
          rw [ht]
          exact hashmap_next_capacity_two_pow t ht63
        have hfW : WFA hashF
            (hashmap_fresh (hashmap_next_capacity m1.capacity) :
              Hashmap K V) := by
          rw [hnext]
          refine WFA_fresh hashF (t + 1) ?_
          have hle : hashmap_next_capacity m1.capacity ≤ (2 ^ 64 - 1) / 8 :=
            not_lt.mp h2
          rw [hnext] at hle
          have hconst : ((2 ^ 64 - 1) / 8 : Nat) < 2 ^ 64 := by norm_num
          omega
        have hred : hashmap_grow_body
            (fun (m : Hashmap K V) (_ : K) (_ : V) => (m, 0)) m =
            hashmap_fresh (hashmap_next_capacity m1.capacity) := by
          simp only [hashmap_grow_body]
          rw [hm1eq, if_neg h1, if_neg h2, hiter,
            if_neg (by simp [hz, hashmap_fresh])]
        have hm1nil : m1.entries = [] := by
          have := hm1w.h_size
          rw [hz] at this
          exact (List.length_eq_zero.mp this.symm)
        rw [hred, ← hm1ent, ← hm1size, hm1nil, hashmap_fresh_entries, hz]
        exact ⟨hfW, List.Perm.refl _, rfl⟩
      · have hred : hashmap_grow_body
            (fun (m : Hashmap K V) (_ : K) (_ : V) => (m, 0)) m = m1 := by
          simp only [hashmap_grow_body]
          rw [hm1eq, if_neg h1, if_neg h2, hiter,
            if_pos (by simp [hashmap_fresh]; exact hz)]
        rw [hred, hm1ent, hm1size]
        exact ⟨hm1w, List.Perm.refl _, rfl⟩

theorem hashmap_ops_spec [DecidableEq K] (hashF : K → Nat) :
    ∀ f, InsertSpec hashF ((hashmap_ops (K := K) (V := V) hashF f).1) ∧
      GrowSpec hashF ((hashmap_ops (K := K) (V := V) hashF f).2) := by
  intro f
  induction f with
  | zero =>
    constructor
    · show InsertSpec hashF (hashmap_insert_body hashF (fun m => m))
      apply hashmap_insert_body_spec
      intro m' hm'
      exact ⟨hm', List.Perm.refl _⟩
    · show GrowSpec hashF
        (hashmap_grow_body (fun (m : Hashmap K V) (_ : K) (_ : V) => (m, 0)))
      exact hashmap_grow_body_vacuous hashF
  | succ f ih =>
    constructor
    · show InsertSpec hashF
        (hashmap_insert_body hashF (hashmap_ops hashF f).2)
      apply hashmap_insert_body_spec
      intro m' hm'
      obtain ⟨hw, hp, _⟩ := ih.2 m' (Or.inr hm')
      exact ⟨hw, hp⟩
    · show GrowSpec hashF (hashmap_grow_body (hashmap_ops hashF f).1)
      intro m hwf
      obtain ⟨hw, hp, hs, _⟩ := hashmap_grow_body_master hashF _ ih.1 m hwf
      exact ⟨hw, hp, hs⟩

/-! ## Specifications of the public wrappers -/

theorem hashmap_insert_spec [DecidableEq K] (hashF : K → Nat)
    (m : Hashmap K V) (key : K) (value : V) (hwf : WF hashF m) :
    WFA hashF (hashmap_insert hashF m key value).1 ∧
    ((hashmap_insert hashF m key value).1.entries).Perm
      ((key, value) :: filterOutKey key m.entries) ∧
    ((hashmap_insert hashF m key value).2 =
      if key ∈ m.keyList then 1 else 0) ∧
    (m.buckets.isSome = true → 4 * m.buckets_filled ≤ 3 * m.capacity →
      (hashmap_insert hashF m key value).1.capacity = m.capacity) :=
  (hashmap_ops_spec hashF (hashmap_fuel m)).1 m key value hwf

theorem hashmap_grow_wrapper_spec [DecidableEq K] (hashF : K → Nat)
    (m : Hashmap K V) (hwf : WF hashF m) :
    WFA hashF (hashmap_grow hashF m) ∧
    ((hashmap_grow hashF m).entries).Perm m.entries ∧
    (hashmap_grow hashF m).size = m.size :=
  (hashmap_ops_spec hashF (hashmap_fuel m)).2 m hwf

theorem hashmap_grow_double [DecidableEq K] (hashF : K → Nat)
    (m : Hashmap K V) (hwf : WF hashF m) (hsome : m.buckets.isSome = true)
    (hcap : m.capacity ≤ 2 ^ 24) (hsz : 2 * m.size ≤ 3 * m.capacity) :
    (hashmap_grow hashF m).capacity = 2 * m.capacity := by
  have hg : hashmap_grow hashF m = hashmap_grow_body
      (hashmap_ops hashF (m.size + m.capacity + 63)).1 m := rfl
  rw [hg]
  exact (hashmap_grow_body_master hashF _
    (hashmap_ops_spec hashF (m.size + m.capacity + 63)).1 m hwf).2.2.2
    hsome hcap hsz

/-! ## Specification of remove -/

theorem hashmap_remove_spec [DecidableEq K] (hashF : K → Nat)
    (m : Hashmap K V) (key : K) (hwa : WFA hashF m) :
    (hashmap_remove hashF m key).2 = hashmap_get hashF m key ∧
    WFA hashF (hashmap_remove hashF m key).1 ∧
    ((hashmap_remove hashF m key).1.entries).Perm
      (filterOutKey key m.entries) ∧
    (hashmap_remove hashF m key).1.capacity = m.capacity ∧
    ((hashmap_get hashF m key).isSome = true →
      (hashmap_remove hashF m key).1.size + 1 = m.size) ∧
    (hashmap_get hashF m key = none → (hashmap_remove hashF m key).1 = m) ∧
    ((hashmap_get hashF m key).isSome = true →
      ((hashmap_remove hashF m key).1.chains.getD
          (hashmap_hash_index hashF m key) [] = [] →
        (hashmap_remove hashF m key).1.buckets_filled + 1 =
          m.buckets_filled) ∧
      ((hashmap_remove hashF m key).1.chains.getD
          (hashmap_hash_index hashF m key) [] ≠ [] →
        (hashmap_remove hashF m key).1.buckets_filled =
          m.buckets_filled)) := by
  have hcap : 0 < m.capacity := hwa.cap_pos
  have hlt : hashmap_hash_index hashF m key < m.chains.length := by
    rw [hwa.h_len]
    exact hash_index_lt_capacity hashF m key hcap
  have hn : m.buckets.isNone = false := hwa.isNone_false
  rcases hashmap_list_remove_cases
      (m.chains.getD (hashmap_hash_index hashF m key) []) key with
    ⟨hnot, heqr⟩ | ⟨l₁, w, l₂, hbd, hnot₁, heqr⟩
  · have hget : hashmap_get hashF m key = none := by
      rw [hashmap_get_eq_find hwa]
      exact hashmap_list_find_eq_none hnot
    have hsame : m.chains.set (hashmap_hash_index hashF m key)
        (m.chains.getD (hashmap_hash_index hashF m key) []) = m.chains := by
      rw [list_set_decomp _ _ hlt, ← list_decomp_getD _ _ hlt]
    have hres : hashmap_remove hashF m key = (m, none) := by
      simp only [hashmap_remove, hn, Bool.false_eq_true, if_false, heqr]
      rw [hsame, ← hwa.buckets_eq]
    rw [hres, hget]
    refine ⟨rfl, hwa, ?_, rfl, ?_, fun _ => rfl, ?_⟩
    · have hnk : key ∉ m.entries.map Prod.fst := by
        intro hk
        obtain ⟨v, hv⟩ := mem_keyList_iff.mp hk
        exact hnot (List.mem_map.mpr
          ⟨(key, v), mem_bucket_of_mem_entries hwa hv, rfl⟩)
      rw [filterOutKey_eq_self hnk]
    · intro h
      exact absurd h (by simp)
    · intro h
      exact absurd h (by simp)
  · have hget : hashmap_get hashF m key = some w := by
      rw [hashmap_get_eq_find hwa, hbd, hashmap_list_find_append_left hnot₁,
        hashmap_list_find_cons_self]
    have hres : hashmap_remove hashF m key =
        ({ m with
           buckets := some (m.chains.set (hashmap_hash_index hashF m key)
             (l₁ ++ l₂)),
           buckets_filled := if (l₁ ++ l₂).isEmpty then m.buckets_filled - 1
                             else m.buckets_filled,
           size := m.size - 1 }, some w) := by
      simp only [hashmap_remove, hn, Bool.false_eq_true, if_false, heqr]
    rw [hres, hget]
    have hchains : m.chains = m.chains.take (hashmap_hash_index hashF m key)
        ++ (l₁ ++ (key, w) :: l₂) ::
          m.chains.drop (hashmap_hash_index hashF m key + 1) := by
      have h := list_decomp_getD m.chains (hashmap_hash_index hashF m key)
        hlt []
      rw [hbd] at h
      exact h
    have hent : m.entries =
        (m.chains.take (hashmap_hash_index hashF m key)).flatten ++
        ((l₁ ++ (key, w) :: l₂) ++
        (m.chains.drop (hashmap_hash_index hashF m key + 1)).flatten) := by
      rw [Hashmap.entries]
      conv_lhs => rw [hchains]
      simp
    have hchains' : m.chains.set (hashmap_hash_index hashF m key)
        (l₁ ++ l₂) =
        m.chains.take (hashmap_hash_index hashF m key) ++ (l₁ ++ l₂) ::
        m.chains.drop (hashmap_hash_index hashF m key + 1) :=
      list_set_decomp _ _ hlt _
    have hent' : ({ m with
        buckets := some (m.chains.set (hashmap_hash_index hashF m key)
          (l₁ ++ l₂)),
        buckets_filled := if (l₁ ++ l₂).isEmpty then m.buckets_filled - 1
                          else m.buckets_filled,
        size := m.size - 1 } : Hashmap K V).entries =
        (m.chains.take (hashmap_hash_index hashF m key)).flatten ++
        ((l₁ ++ l₂) ++
        (m.chains.drop (hashmap_hash_index hashF m key + 1)).flatten) := by
      show (m.chains.set (hashmap_hash_index hashF m key)
        (l₁ ++ l₂)).flatten = _
      rw [hchains']
      simp
    have hkeq : m.keyList =
        ((m.chains.take (hashmap_hash_index hashF m key)).flatten.map
          Prod.fst ++ l₁.map Prod.fst) ++ key ::
        (l₂.map Prod.fst ++
         (m.chains.drop (hashmap_hash_index hashF m key + 1)).flatten.map
          Prod.fst) := by
      rw [Hashmap.keyList, hent]
      simp [List.append_assoc]
    have hnm := (nodup_middle (hkeq ▸ hwa.h_nodup)).1
    simp only [List.mem_append, not_or] at hnm
    obtain ⟨⟨hnmT, hnml₁⟩, hnml₂, hnmD⟩ := hnm
    have hfilter : filterOutKey key m.entries =
        (m.chains.take (hashmap_hash_index hashF m key)).flatten ++
        ((l₁ ++ l₂) ++
        (m.chains.drop (hashmap_hash_index hashF m key + 1)).flatten) := by
      rw [hent, filterOutKey_append, filterOutKey_append, filterOutKey_append,
        filterOutKey_cons_self, filterOutKey_eq_self hnmT,
        filterOutKey_eq_self hnml₁, filterOutKey_eq_self hnml₂,
        filterOutKey_eq_self hnmD]
    have hold : m.buckets_filled =
        (m.chains.take (hashmap_hash_index hashF m key)).countP
          (fun b => !b.isEmpty) +
        ((m.chains.drop (hashmap_hash_index hashF m key + 1)).countP
          (fun b => !b.isEmpty) + 1) := by
      conv_lhs => rw [hwa.h_filled, hchains]
      rw [List.countP_append, List.countP_cons]
      simp [isEmpty_append_cons]
    have hsz : m.size =
        (m.chains.take (hashmap_hash_index hashF m key)).flatten.length +
        (l₁.length + 1 + l₂.length +
        (m.chains.drop (hashmap_hash_index hashF m key + 1)).flatten.length)
        := by
      rw [hwa.h_size, hent]
      simp
      omega
    refine ⟨rfl, ?_, ?_, rfl, ?_, ?_, ?_⟩
    · refine ⟨rfl, ?_, hwa.h_pow, hwa.h_lt, ?_, ?_, ?_, ?_⟩
      · show (m.chains.set (hashmap_hash_index hashF m key)
          (l₁ ++ l₂)).length = m.capacity
        rw [List.length_set]
        exact hwa.h_len
      · intro j hj p hp
        replace hj : j < (m.chains.set (hashmap_hash_index hashF m key)
            (l₁ ++ l₂)).length := hj
        replace hp : p ∈ (m.chains.set (hashmap_hash_index hashF m key)
            (l₁ ++ l₂)).getD j [] := hp
        show hashF p.1 &&& (m.capacity - 1) = j
        rw [List.length_set] at hj
        by_cases hji : hashmap_hash_index hashF m key = j
        · subst hji
          rw [getD_set_self _ hlt] at hp
          refine hwa.h_bucket _ hlt p ?_
          rw [hbd]
          rcases List.mem_append.mp hp with h1 | h2
          · exact List.mem_append_left _ h1
          · exact List.mem_append_right _ (List.mem_cons_of_mem _ h2)
        · rw [getD_set_ne _ hji] at hp
          exact hwa.h_bucket j hj p hp
      · show (Hashmap.keyList _).Nodup
        rw [Hashmap.keyList, hent', ← hfilter]
        exact List.Nodup.sublist
          ((List.filter_sublist _).map Prod.fst) hwa.h_nodup
      · show m.size - 1 = _
        rw [hent', hsz]
        simp
        omega
      · show (if (l₁ ++ l₂).isEmpty then m.buckets_filled - 1
            else m.buckets_filled) = _
        show _ = (m.chains.set (hashmap_hash_index hashF m key)
          (l₁ ++ l₂)).countP (fun b => !b.isEmpty)
        rw [hchains', List.countP_append, List.countP_cons, hold]
        cases hb2 : (l₁ ++ l₂).isEmpty with
        | true => simp [hb2]
        | false => simp [hb2]
    · rw [hent', ← hfilter]
    · intro _
      show (m.size - 1) + 1 = m.size
      rw [hsz]
      omega
    · intro h
      exact absurd h (by simp)
    · intro _
      constructor
      · intro hempty
        replace hempty : (m.chains.set (hashmap_hash_index hashF m key)
            (l₁ ++ l₂)).getD (hashmap_hash_index hashF m key) [] = [] :=
          hempty
        rw [getD_set_self _ hlt] at hempty
        show (if (l₁ ++ l₂).isEmpty then m.buckets_filled - 1
          else m.buckets_filled) + 1 = m.buckets_filled
        rw [if_pos (by rw [hempty]; rfl), hold]
        omega
      · intro hne
        replace hne : ¬((m.chains.set (hashmap_hash_index hashF m key)
            (l₁ ++ l₂)).getD (hashmap_hash_index hashF m key) [] = []) := hne
        rw [getD_set_self _ hlt] at hne
        show (if (l₁ ++ l₂).isEmpty then m.buckets_filled - 1
          else m.buckets_filled) = m.buckets_filled
        rw [if_neg (by intro hemp; exact hne (by
          cases hl12 : (l₁ ++ l₂) with
          | nil => rfl
          | cons a tl => rw [hl12] at hemp; exact absurd hemp (by simp)))]

/-! ## Well-formedness preservation for the remaining operations -/

theorem flatten_map_nil {α : Type u} (L : List (List α)) :
    (L.map (fun _ => ([] : List α))).flatten = [] := by
  induction L with
  | nil => rfl
  | cons b rest ih => rw [List.map_cons, List.flatten_cons, ih]; rfl

theorem countP_map_nil {α : Type u} (L : List (List α)) :
    (L.map (fun _ => ([] : List α))).countP (fun b => !b.isEmpty) = 0 := by
  induction L with
  | nil => rfl
  | cons b rest ih => rw [List.map_cons, List.countP_cons]; simp [ih]

theorem getD_map_nil {α : Type u} (L : List (List α)) (i : Nat) :
    (L.map (fun _ => ([] : List α))).getD i [] = [] := by
  rw [List.getD_eq_getElem?_getD, List.getElem?_map]
  cases L[i]? <;> rfl

theorem map_list_duplicate (L : List (List (K × V))) :
    L.map hashmap_list_duplicate = L := by
  induction L with
  | nil => rfl
  | cons b rest ih =>
    rw [List.map_cons, hashmap_list_duplicate_eq, ih]

theorem WF_empty (hashF : K → Nat) : WF hashF (Hashmap.empty : Hashmap K V) :=
  Or.inl rfl

theorem WF_init (hashF : K → Nat) : WF hashF (hashmap_init : Hashmap K V) :=
  Or.inr (WFA_init hashF)

theorem WF_insert [DecidableEq K] (hashF : K → Nat) (m : Hashmap K V)
    (key : K) (value : V) (h : WF hashF m) :
    WF hashF (hashmap_insert hashF m key value).1 :=
  Or.inr (hashmap_insert_spec hashF m key value h).1

theorem WF_grow [DecidableEq K] (hashF : K → Nat) (m : Hashmap K V)
    (h : WF hashF m) : WF hashF (hashmap_grow hashF m) :=
  Or.inr (hashmap_grow_wrapper_spec hashF m h).1

theorem WF_remove [DecidableEq K] (hashF : K → Nat) (m : Hashmap K V)
    (key : K) (h : WF hashF m) : WF hashF (hashmap_remove hashF m key).1 := by
  rcases h with rfl | hwa
  · left
    rfl
  · exact Or.inr (hashmap_remove_spec hashF m key hwa).2.1

theorem WF_free (hashF : K → Nat) (m : Hashmap K V) :
    WF hashF (hashmap_free m) := Or.inl rfl

theorem WF_clear (hashF : K → Nat) (m : Hashmap K V) (h : WF hashF m) :
    WF hashF (hashmap_clear m) := by
  rcases h with rfl | hwa
  · left
    rfl
  · right
    have hb : (hashmap_clear m).buckets =
        some (m.chains.map (fun _ => ([] : List (K × V)))) := by
      show m.buckets.map _ = _
      rw [hwa.buckets_eq]
      rfl
    have hch : (hashmap_clear m).chains =
        m.chains.map (fun _ => ([] : List (K × V))) := by
      rw [Hashmap.chains, hb]
      rfl
    refine ⟨by rw [hb]; rfl, ?_, hwa.h_pow, hwa.h_lt, ?_, ?_, ?_, ?_⟩
    · rw [hch, List.length_map]
      exact hwa.h_len
    · intro i hi p hp
      rw [hch, getD_map_nil] at hp
      exact absurd hp (List.not_mem_nil p)
    · rw [Hashmap.keyList, Hashmap.entries, hch, flatten_map_nil]
      exact List.nodup_nil
    · rw [Hashmap.entries, hch, flatten_map_nil]
      rfl
    · rw [hch, countP_map_nil]
      rfl

theorem WF_duplicate (hashF : K → Nat) (m : Hashmap K V) (h : WF hashF m) :
    WF hashF (hashmap_duplicate m) := by
  by_cases hc : m.capacity = 0
  · left
    rw [hashmap_duplicate, if_pos hc]
  · rcases h with rfl | hwa
    · exact absurd rfl hc
    · have hm : hashmap_duplicate m = m := by
        rw [hashmap_duplicate, if_neg hc, map_list_duplicate, ← hwa.buckets_eq]
      rw [hm]
      exact Or.inr hwa

theorem WF_runTableOp [DecidableEq K] (hashF : K → Nat) (m : Hashmap K V)
    (op : TableOp K V) (h : WF hashF m) :
    WF hashF (runTableOp hashF m op) := by
  cases op with
  | init => exact WF_init hashF
  | ins key value => exact WF_insert hashF m key value h
  | rmv key => exact WF_remove hashF m key h
  | getq _ => exact h
  | hasq _ => exact h
  | grw => exact WF_grow hashF m h
  | iter => exact h
  | dup => exact WF_duplicate hashF m h
  | clr => exact WF_clear hashF m h
  | fre => exact WF_free hashF m

theorem WF_runTableOps [DecidableEq K] (hashF : K → Nat) :
    ∀ (ops : List (TableOp K V)) (m : Hashmap K V), WF hashF m →
      WF hashF (runTableOps hashF m ops) := by
  intro ops
  induction ops with
  | nil => intro m h; exact h
  | cons op tl ih =>
    intro m h
    exact ih (runTableOp hashF m op) (WF_runTableOp hashF m op h)

/-! ## Lookup after insert and after growth -/

theorem hashmap_get_insert [DecidableEq K] (hashF : K → Nat) (m : Hashmap K V)
    (key : K) (value : V) (k : K) (h : WF hashF m) :
    hashmap_get hashF (hashmap_insert hashF m key value).1 k =
      if k = key then some value else hashmap_get hashF m k := by
  obtain ⟨hw, hperm, -, -⟩ := hashmap_insert_spec hashF m key value h
  by_cases hk : k = key
  · subst hk
    rw [if_pos rfl]
    apply (hashmap_get_eq_some_iff hw).mpr
    exact hperm.mem_iff.mpr (List.mem_cons_self _ _)
  · rw [if_neg hk]
    cases hg : hashmap_get hashF m k with
    | some u =>
      apply (hashmap_get_eq_some_iff hw).mpr
      apply hperm.mem_iff.mpr
      apply List.mem_cons_of_mem
      rw [filterOutKey, List.mem_filter]
      refine ⟨?_, by simp [hk]⟩
      rcases h with rfl | hwa
      · exact absurd hg (by simp [hashmap_get_empty])
      · exact (hashmap_get_eq_some_iff hwa).mp hg
    | none =>
      apply (hashmap_get_eq_none_iff hw).mpr
      intro hkmem
      obtain ⟨u, hu⟩ := mem_keyList_iff.mp hkmem
      have hm := hperm.mem_iff.mp hu
      rcases List.mem_cons.mp hm with he | hf
      · exact hk (congrArg Prod.fst he)
      · rw [filterOutKey, List.mem_filter] at hf
        rcases h with rfl | hwa
        · exact absurd hf.1 (List.not_mem_nil _)
        · have hcontra := (hashmap_get_eq_some_iff hwa).mpr hf.1
          rw [hg] at hcontra
          exact Option.noConfusion hcontra

theorem hashmap_get_grow [DecidableEq K] (hashF : K → Nat) (m : Hashmap K V)
    (k : K) (h : WF hashF m) :
    hashmap_get hashF (hashmap_grow hashF m) k = hashmap_get hashF m k := by
  obtain ⟨hw, hp, -⟩ := hashmap_grow_wrapper_spec hashF m h
  exact hashmap_get_eq_of_perm h hw hp k

theorem get_runInsOps [DecidableEq K] (hashF : K → Nat) :
    ∀ (ops : List (InsOp K V)) (m : Hashmap K V) (k : K), WF hashF m →
      hashmap_get hashF (runInsOps hashF m ops) k =
        lastInsertVal (hashmap_get hashF m k) ops k := by
  intro ops
  induction ops with
  | nil => intro m k _; rfl
  | cons op tl ih =>
    intro m k h
    cases op with
    | ins key value =>
      have h1 : runInsOps hashF m (InsOp.ins key value :: tl) =
          runInsOps hashF (hashmap_insert hashF m key value).1 tl := rfl
      have h2 : lastInsertVal (hashmap_get hashF m k)
          (InsOp.ins key value :: tl) k =
          lastInsertVal (if key = k then some value
            else hashmap_get hashF m k) tl k := rfl
      rw [h1, h2, ih _ k (WF_insert hashF m key value h),
        hashmap_get_insert hashF m key value k h]
      congr 1
      by_cases hk : k = key
      · rw [if_pos hk, if_pos hk.symm]
      · rw [if_neg hk, if_neg (fun he => hk he.symm)]
    | grw =>
      have h1 : runInsOps hashF m (InsOp.grw :: tl) =
          runInsOps hashF (hashmap_grow hashF m) tl := rfl
      have h2 : lastInsertVal (hashmap_get hashF m k) (InsOp.grw :: tl) k =
          lastInsertVal (hashmap_get hashF m k) tl k := rfl
      rw [h1, h2, ih _ k (WF_grow hashF m h), hashmap_get_grow hashF m k h]

/-! ## Remaining helper lemmas for the claims -/

theorem filterOutKey_length_of_mem [DecidableEq K] {k : K} {w : V} :
    ∀ {l : List (K × V)}, (l.map Prod.fst).Nodup → (k, w) ∈ l →
      (filterOutKey k l).length + 1 = l.length := by
  intro l
  induction l with
  | nil => intro _ hm; exact absurd hm (List.not_mem_nil _)
  | cons p tl ih =>
    intro hnd hm
    rw [List.map_cons, List.nodup_cons] at hnd
    by_cases hp : p.1 = k
    · have hk2 : k ∉ tl.map Prod.fst := by
        rw [← hp]
        exact hnd.1
      have h1 : filterOutKey k (p :: tl) = filterOutKey k tl := by
        rw [filterOutKey, filterOutKey, List.filter_cons]
        simp [hp]
      rw [h1, filterOutKey_eq_self hk2, List.length_cons]
    · have hm2 : (k, w) ∈ tl := by
        rcases List.mem_cons.mp hm with he | h2
        · exact absurd (congrArg Prod.fst he).symm hp
        · exact h2
      have h1 : filterOutKey k (p :: tl) = p :: filterOutKey k tl := by
        rw [filterOutKey, filterOutKey, List.filter_cons]
        simp [hp]
      have h2 := ih hnd.2 hm2
      rw [h1, List.length_cons, List.length_cons]
      omega

theorem iterationVisits_complete (cb : K → V → γ → γ × Bool) :
    ∀ (l : List (K × V)) (ctx : γ),
      (iterationVisits cb l ctx).2.2 = true → (iterationVisits cb l ctx).1 = l := by
  intro l
  induction l with
  | nil => intro ctx _; rfl
  | cons p tl ih =>
    intro ctx hc
    rw [iterationVisits] at hc ⊢
    cases hb : (cb p.1 p.2 ctx).2 with
    | true =>
      simp only [hb, if_true] at hc ⊢
      exact congrArg (List.cons p) (ih _ hc)
    | false =>
      simp only [hb, Bool.false_eq_true, if_false] at hc

/-! ## The claims -/

/-- C1: round-trip over insert sequences.  Starting from the zeroed table and
running any sequence of inserts and explicit growths, if the last insert of
key `k` in the sequence bound it to `v` (it was inserted and never overwritten
with a different value — removal is not among the operations the claim
quantifies over), then `hashmap_get` returns `v` for `k`, regardless of any
growths interleaved anywhere in the sequence. -/
theorem c1_insert_get_round_trip [DecidableEq K] (hashF : K → Nat)
    (ops : List (InsOp K V)) (k : K) (v : V)
    (h : lastInsertVal none ops k = some v) :
    hashmap_get hashF (runInsOps hashF Hashmap.empty ops) k = some v := by
  rw [get_runInsOps hashF ops Hashmap.empty k (WF_empty hashF),
    hashmap_get_empty]
  exact h

/-- Witness for C1: insert 1↦10, grow, insert 2↦20; key 1 still reads 10. -/
theorem c1_insert_get_round_trip_witness :
    lastInsertVal none [InsOp.ins 1 10, InsOp.grw, InsOp.ins 2 20] (1 : Nat)
      = some (10 : Nat) ∧
    hashmap_get id (runInsOps id Hashmap.empty
      [InsOp.ins 1 10, InsOp.grw, InsOp.ins 2 20]) 1 = some 10 :=
  ⟨by decide, c1_insert_get_round_trip id
    [InsOp.ins 1 10, InsOp.grw, InsOp.ins 2 20] 1 10 (by decide)⟩

/-- C2: growth preserves content.  On any well-formed table, `hashmap_grow`
(the same function the load-factor threshold triggers from `hashmap_insert`)
leaves every lookup result unchanged — each key retrievable before is
retrievable after with the same value, and vice versa — and leaves the `size`
field unchanged. -/
theorem c2_growth_preserves_content [DecidableEq K] (hashF : K → Nat)
    (m : Hashmap K V) (k : K) (h : WF hashF m) :
    hashmap_get hashF (hashmap_grow hashF m) k = hashmap_get hashF m k ∧
    hashmap_size (hashmap_grow hashF m) = hashmap_size m :=
  ⟨hashmap_get_grow hashF m k h, (hashmap_grow_wrapper_spec hashF m h).2.2⟩

/-- Witness for C2: growing the one-entry table `{1 ↦ 10}` preserves the
binding of key 1 and the size. -/
theorem c2_growth_preserves_content_witness :
    hashmap_get id (hashmap_grow id (hashmap_insert id Hashmap.empty 1 10).1) 1
      = hashmap_get id (hashmap_insert id Hashmap.empty 1 10).1 1 ∧
    hashmap_size (hashmap_grow id (hashmap_insert id Hashmap.empty 1 10).1)
      = hashmap_size (hashmap_insert id Hashmap.empty 1 10).1 :=
  c2_growth_preserves_content id (hashmap_insert id Hashmap.empty 1 10).1 1
    (WF_insert id Hashmap.empty 1 10 (WF_empty id))

/-- C3: overwrite semantics.  On a well-formed table where `key` is present
(it reads back as `some w`), inserting `key ↦ v2` returns the C "existed"
signal `1`, rebinds `key` to `v2`, and leaves `size` unchanged. -/
theorem c3_overwrite_semantics [DecidableEq K] (hashF : K → Nat)
    (m : Hashmap K V) (key : K) (v2 : V) (w : V) (hwf : WF hashF m)
    (hk : hashmap_get hashF m key = some w) :
    (hashmap_insert hashF m key v2).2 = 1 ∧
    hashmap_get hashF (hashmap_insert hashF m key v2).1 key = some v2 ∧
    hashmap_size (hashmap_insert hashF m key v2).1 = hashmap_size m := by
  have hwa : WFA hashF m := by
    rcases hwf with rfl | hwa
    · rw [hashmap_get_empty] at hk
      exact Option.noConfusion hk
    · exact hwa
  have hmem : (key, w) ∈ m.entries := (hashmap_get_eq_some_iff hwa).mp hk
  have hkey : key ∈ m.keyList := mem_keyList_iff.mpr ⟨w, hmem⟩
  obtain ⟨hw', hperm, hflag, -⟩ := hashmap_insert_spec hashF m key v2 hwf
  refine ⟨by rw [hflag, if_pos hkey], ?_, ?_⟩
  · rw [hashmap_get_insert hashF m key v2 key hwf, if_pos rfl]
  · show (hashmap_insert hashF m key v2).1.size = m.size
    rw [hw'.h_size, hperm.length_eq, List.length_cons, hwa.h_size]
    exact filterOutKey_length_of_mem hwa.h_nodup hmem

/-- Witness for C3: in `{5 ↦ 7}`, inserting `5 ↦ 9` reports 1, rebinds 5 to
9 and keeps the size. -/
theorem c3_overwrite_semantics_witness :
    hashmap_get id (hashmap_insert id Hashmap.empty 5 7).1 5 = some 7 ∧
    ((hashmap_insert id (hashmap_insert id Hashmap.empty 5 7).1 5 9).2 = 1 ∧
    hashmap_get id
      (hashmap_insert id (hashmap_insert id Hashmap.empty 5 7).1 5 9).1 5
      = some 9 ∧
    hashmap_size (hashmap_insert id (hashmap_insert id Hashmap.empty 5 7).1 5 9).1
      = hashmap_size (hashmap_insert id Hashmap.empty 5 7).1) :=
  ⟨by decide, c3_overwrite_semantics id (hashmap_insert id Hashmap.empty 5 7).1
    5 9 7 (WF_insert id Hashmap.empty 5 7 (WF_empty id)) (by decide)⟩

/-- C4: structural invariants over arbitrary operation sequences.  Running
any sequence of the public operations from the zeroed table: whenever the
bucket array is present, `capacity` is a nonzero power of two and
`buckets_filled ≤ capacity`; always `buckets_filled ≤ size`; and
`capacity = 0` exactly when the bucket array is absent. -/
theorem c4_capacity_invariants [DecidableEq K] (hashF : K → Nat)
    (ops : List (TableOp K V)) :
    ((runTableOps hashF Hashmap.empty ops).buckets.isSome = true →
      0 < (runTableOps hashF Hashmap.empty ops).capacity ∧
      (∃ t, (runTableOps hashF Hashmap.empty ops).capacity = 2 ^ t) ∧
      (runTableOps hashF Hashmap.empty ops).buckets_filled ≤
        (runTableOps hashF Hashmap.empty ops).capacity) ∧
    (runTableOps hashF Hashmap.empty ops).buckets_filled ≤
      (runTableOps hashF Hashmap.empty ops).size ∧
    ((runTableOps hashF Hashmap.empty ops).capacity = 0 ↔
      (runTableOps hashF Hashmap.empty ops).buckets = none) := by
  rcases WF_runTableOps hashF ops Hashmap.empty (WF_empty hashF) with he | hwa
  · rw [he]
    exact ⟨fun hs => Bool.noConfusion hs, Nat.le_refl 0,
      ⟨fun _ => rfl, fun _ => rfl⟩⟩
  · refine ⟨fun _ => ⟨hwa.cap_pos, hwa.h_pow, hwa.bf_le_cap⟩, hwa.bf_le_size,
      fun hc => absurd hwa.cap_pos (by rw [hc]; exact Nat.lt_irrefl 0),
      fun hb => ?_⟩
    have hs := hwa.h_some
    rw [hb] at hs
    exact Bool.noConfusion hs

/-- C5 (amended): threshold behavior of growth during insert.  On an
allocated well-formed table, insert keeps `capacity` unchanged when the
occupancy is at or below the 0.75 threshold (`4 * buckets_filled ≤
3 * capacity`); and a requested growth doubles `capacity` exactly, provided
the capacity is small enough that the C `float` comparison is exact
(`capacity ≤ 2 ^ 24`) and the entry count is low enough
(`2 * size ≤ 3 * capacity`) that the rehash cannot re-trigger the threshold
mid-rehash.  Without that proviso growth can exceed doubling — see the
counterexample, which refutes the claim's "grows to double its capacity":
a reachable capacity-8 table over the threshold grows to 32, not 16. -/
theorem c5_threshold_growth [DecidableEq K] (hashF : K → Nat)
    (m : Hashmap K V) (key : K) (value : V) (hwf : WF hashF m)
    (hsome : m.buckets.isSome = true) :
    (4 * m.buckets_filled ≤ 3 * m.capacity →
      (hashmap_insert hashF m key value).1.capacity = m.capacity) ∧
    (m.capacity ≤ 2 ^ 24 → 2 * m.size ≤ 3 * m.capacity →
      (hashmap_grow hashF m).capacity = 2 * m.capacity) :=
  ⟨fun hload => (hashmap_insert_spec hashF m key value hwf).2.2.2 hsome hload,
   fun hcap hsz => hashmap_grow_double hashF m hwf hsome hcap hsz⟩

/-- Witness for C5: on the one-entry table `{1 ↦ 10}` (capacity 8, one
bucket occupied), inserting key 2 keeps capacity 8, and a direct growth
doubles the capacity to 16. -/
theorem c5_threshold_growth_witness :
    ((hashmap_insert id Hashmap.empty 1 10).1.buckets.isSome = true) ∧
    ((4 * (hashmap_insert id Hashmap.empty 1 10).1.buckets_filled ≤
        3 * (hashmap_insert id Hashmap.empty 1 10).1.capacity →
      (hashmap_insert id (hashmap_insert id Hashmap.empty 1 10).1 2 20).1.capacity
        = (hashmap_insert id Hashmap.empty 1 10).1.capacity) ∧
    ((hashmap_insert id Hashmap.empty 1 10).1.capacity ≤ 2 ^ 24 →
      2 * (hashmap_insert id Hashmap.empty 1 10).1.size ≤
        3 * (hashmap_insert id Hashmap.empty 1 10).1.capacity →
      (hashmap_grow id (hashmap_insert id Hashmap.empty 1 10).1).capacity =
        2 * (hashmap_insert id Hashmap.empty 1 10).1.capacity)) :=
  ⟨by decide, c5_threshold_growth id (hashmap_insert id Hashmap.empty 1 10).1
    2 20 (WF_insert id Hashmap.empty 1 10 (WF_empty id)) (by decide)⟩

/-- Counterexample for C5: `c5Map` is a table reachable by inserts from the
zeroed table with capacity 8 and occupancy over the 0.75 threshold
(7 of 8 buckets, 28 > 24), yet inserting one more key leaves it at capacity
32, not the claimed double 16: the rehash into 16 buckets itself crosses the
threshold and grows again before the new key is placed. -/
theorem c5_growth_exceeds_double :
    c5Map.capacity = 8 ∧
    4 * c5Map.buckets_filled > 3 * c5Map.capacity ∧
    (hashmap_insert id c5Map 100 0).1.capacity = 32 := by decide

/-- C6: overflow aborts growth as a silent no-op.  On a table whose bucket
array is present, if the next-power-of-two computation wraps below the
current capacity or would make `new_capacity * sizeof(node pointer)` exceed
`SIZE_MAX`, `hashmap_grow` returns the table completely unchanged: same
capacity, same contents, same bucket array. -/
theorem c6_overflow_growth_noop [DecidableEq K] (hashF : K → Nat)
    (m : Hashmap K V) (hsome : m.buckets.isSome = true)
    (hovf : hashmap_next_capacity m.capacity < m.capacity ∨
      (2 ^ 64 - 1) / 8 < hashmap_next_capacity m.capacity) :
    hashmap_grow hashF m = m := by
  have hg : hashmap_grow hashF m =
      hashmap_grow_body (hashmap_ops hashF (m.size + m.capacity + 63)).1 m :=
    rfl
  have hn : m.buckets.isNone = false := by
    cases hb : m.buckets with
    | none =>
      rw [hb] at hsome
      exact Bool.noConfusion hsome
    | some bs => rfl
  rw [hg, hashmap_grow_body]
  simp only [hn, Bool.false_eq_true, if_false]
  rcases hovf with h1 | h2
  · rw [if_pos h1]
  · by_cases h1 : hashmap_next_capacity m.capacity < m.capacity
    · rw [if_pos h1]
    · rw [if_neg h1, if_pos h2]

/-- Witness for C6: a table at capacity `2 ^ 63` (the largest power of two in
`size_t`), where the next-capacity computation wraps to 0; growth leaves it
unchanged. -/
theorem c6_overflow_growth_noop_witness :
    ((⟨some [], 0, 2 ^ 63, 0⟩ : Hashmap Nat Nat).buckets.isSome = true) ∧
    hashmap_grow id (⟨some [], 0, 2 ^ 63, 0⟩ : Hashmap Nat Nat) =
      (⟨some [], 0, 2 ^ 63, 0⟩ : Hashmap Nat Nat) :=
  ⟨rfl, c6_overflow_growth_noop id (⟨some [], 0, 2 ^ 63, 0⟩ : Hashmap Nat Nat)
    rfl (Or.inl (by decide))⟩

/-- C7: removal deletes.  On a well-formed allocated table where `key` is
present, removing it makes a subsequent lookup of `key` return "not found",
decrements `size` by one, and additionally decrements `buckets_filled` by one
when the key's bucket became empty. -/
theorem c7_remove_deletes [DecidableEq K] (hashF : K → Nat) (m : Hashmap K V)
    (key : K) (hwa : WFA hashF m)
    (hfound : (hashmap_get hashF m key).isSome = true) :
    hashmap_get hashF (hashmap_remove hashF m key).1 key = none ∧
    (hashmap_remove hashF m key).1.size + 1 = m.size ∧
    ((hashmap_remove hashF m key).1.chains.getD
        (hashmap_hash_index hashF m key) [] = [] →
      (hashmap_remove hashF m key).1.buckets_filled + 1 = m.buckets_filled) := by
  obtain ⟨-, hw', hperm, -, hsz, -, hbf⟩ := hashmap_remove_spec hashF m key hwa
  refine ⟨?_, hsz hfound, (hbf hfound).1⟩
  apply (hashmap_get_eq_none_iff hw').mpr
  intro hk
  obtain ⟨u, hu⟩ := mem_keyList_iff.mp hk
  have hmem := hperm.mem_iff.mp hu
  rw [filterOutKey, List.mem_filter] at hmem
  simp at hmem

/-- Witness for C7: in the fresh table insert key 97 ↦ 1, then remove 97;
lookup of 97 fails, the size returns to 0 (`size + 1 = 1`) and
`buckets_filled` drops back (the bucket became empty). -/
theorem c7_remove_deletes_witness :
    ((hashmap_get id (hashmap_insert id Hashmap.empty 97 1).1 97).isSome
      = true) ∧
    (hashmap_get id
        (hashmap_remove id (hashmap_insert id Hashmap.empty 97 1).1 97).1 97
      = none ∧
    (hashmap_remove id (hashmap_insert id Hashmap.empty 97 1).1 97).1.size + 1
      = (hashmap_insert id Hashmap.empty 97 1).1.size ∧
    ((hashmap_remove id (hashmap_insert id Hashmap.empty 97 1).1 97).1.chains.getD
        (hashmap_hash_index id (hashmap_insert id Hashmap.empty 97 1).1 97) []
        = [] →
      (hashmap_remove id
          (hashmap_insert id Hashmap.empty 97 1).1 97).1.buckets_filled + 1
        = (hashmap_insert id Hashmap.empty 97 1).1.buckets_filled)) :=
  ⟨by decide, c7_remove_deletes id (hashmap_insert id Hashmap.empty 97 1).1 97
    (hashmap_insert_spec id Hashmap.empty 97 1 (WF_empty id)).1 (by decide)⟩

/-- C8: iteration visits a prefix and stops at the callback's signal.  With a
registered callback, `hashmap_iterate` returns the context produced by the
instrumented run `iterationVisits` over the table's entries; the entries that
run invokes the callback on are exactly an initial prefix of the entries (so
once the callback signals "stop", no remaining entry or bucket is visited),
at most all of them, and all of them when no invocation signalled "stop";
with no callback registered, iterate returns the context unchanged. -/
theorem c8_iteration_stops_early (m : Hashmap K V)
    (cb : K → V → γ → γ × Bool) (ctx : γ) :
    hashmap_iterate m (some cb) ctx = (iterationVisits cb m.entries ctx).2.1 ∧
    (iterationVisits cb m.entries ctx).1 =
      m.entries.take (iterationVisits cb m.entries ctx).1.length ∧
    (iterationVisits cb m.entries ctx).1.length ≤ m.entries.length ∧
    ((iterationVisits cb m.entries ctx).2.2 = true →
      (iterationVisits cb m.entries ctx).1 = m.entries) ∧
    hashmap_iterate m (none : Option (K → V → γ → γ × Bool)) ctx = ctx := by
  refine ⟨?_, iterationVisits_prefix cb m.entries ctx,
    iterationVisits_length_le cb m.entries ctx,
    iterationVisits_complete cb m.entries ctx, rfl⟩
  show (hashmap_iterate_go cb m.chains ctx).1 =
    (iterationVisits cb m.entries ctx).2.1
  rw [hashmap_iterate_go_eq_flatten, hashmap_list_iterate_eq_visits]
  rfl

/-- C9 (amended): null tolerance under `HASHMAP_NO_PANIC_ON_NULL`.  A null
table reference is silently tolerated, but the value-returning operations
signal it with the distinct error code `-1`, not the claimed not-found/zero
result (`0` means "not found / newly inserted" on a live table); `free` is a
silent no-op.  `hashmap_size` is not covered: the C function dereferences its
argument unconditionally, with no null check under either policy. -/
theorem c9_null_tolerated [DecidableEq K] (hashF : K → Nat) (key : K)
    (value : V) :
    hashmap_insert_np hashF (none : Option (Hashmap K V)) key value
      = (none, -1) ∧
    hashmap_remove_np hashF (none : Option (Hashmap K V)) key = (none, -1) ∧
    hashmap_get_np hashF (none : Option (Hashmap K V)) key = (-1, none) ∧
    hashmap_has_np hashF (none : Option (Hashmap K V)) key = -1 ∧
    hashmap_free_np (none : Option (Hashmap K V)) = none :=
  ⟨rfl, rfl, rfl, rfl, rfl⟩

/-- Counterexample for C9: on a null table, `hashmap_get` returns `-1`, not
the zero result the claim states, and so does `hashmap_insert`. -/
theorem c9_null_returns_minus_one :
    (hashmap_get_np (id : Nat → Nat) (none : Option (Hashmap Nat Nat)) 0).1
      = -1 ∧
    (hashmap_get_np (id : Nat → Nat) (none : Option (Hashmap Nat Nat)) 0).1
      ≠ 0 ∧
    (hashmap_insert_np (id : Nat → Nat) (none : Option (Hashmap Nat Nat)) 0 0).2
      ≠ 0 := by
  decide

/-- C10: the masked hash index is in bounds.  For every table whose capacity
is a power of two (hence nonzero) and every key, `hashmap_hash_index` — the
hash ANDed with `capacity - 1` — is strictly below `capacity`, and therefore
below the bucket array's length whenever that length equals `capacity` (as
every allocated well-formed state has), so the bucket accesses of insert,
remove and get are in bounds. -/
theorem c10_hash_index_in_bounds (hashF : K → Nat) (m : Hashmap K V) (key : K)
    (hpow : ∃ t, m.capacity = 2 ^ t) :
    hashmap_hash_index hashF m key < m.capacity ∧
    (m.chains.length = m.capacity →
      hashmap_hash_index hashF m key < m.chains.length) := by
  obtain ⟨t, ht⟩ := hpow
  have hpos : 0 < m.capacity := by
    rw [ht]
    exact pow_pos (by norm_num) t
  refine ⟨hash_index_lt_capacity hashF m key hpos, fun hlen => ?_⟩
  rw [hlen]
  exact hash_index_lt_capacity hashF m key hpos

/-- Witness for C10: the freshly initialized table (capacity `8 = 2 ^ 3`)
and key 13: the masked index is below the capacity and the array length. -/
theorem c10_hash_index_in_bounds_witness :
    (∃ t, (hashmap_init : Hashmap Nat Nat).capacity = 2 ^ t) ∧
    (hashmap_hash_index id (hashmap_init : Hashmap Nat Nat) 13 <
      (hashmap_init : Hashmap Nat Nat).capacity ∧
    ((hashmap_init : Hashmap Nat Nat).chains.length =
        (hashmap_init : Hashmap Nat Nat).capacity →
      hashmap_hash_index id (hashmap_init : Hashmap Nat Nat) 13 <
        (hashmap_init : Hashmap Nat Nat).chains.length)) :=
  ⟨⟨3, rfl⟩, c10_hash_index_in_bounds id hashmap_init 13 ⟨3, rfl⟩⟩
